import Mathlib

/-!
Verification of the CastCad STL core: format detection, binary STL decoding,
ASCII STL decoding, brush selection and subtractive cutting.

Modelling conventions (shallow embedding of the TypeScript source):
* A JS `ArrayBuffer` viewed through a `DataView` is a `List Nat` of bytes.
* `DataView` reads are `Option`-valued: `none` models the `RangeError`
  exception thrown by an out-of-range read; a whole parse returning `none`
  models the exception propagating out of the call.
* IEEE-754 float32 values read by `getFloat32` are represented by their raw
  little-endian 32-bit patterns (a `Nat < 2^32`); the claims about the binary
  decoder only compare such values for equality and count them, for which the
  bit pattern is a faithful representation.
* Finite JS numbers are represented by `ℚ`; a JS number that may be `NaN`
  (ASCII `parseFloat` output, out-of-range attribute reads) is an `Option ℚ`
  with `none` standing for `NaN`.
* Calls into external libraries (three.js `computeVertexNormals`, the camera
  matrices, the browser `TextDecoder`) are taken as function parameters.
-/

namespace CastCad

/-- A byte buffer (JS `ArrayBuffer`); entries are bytes `0..255`. -/
abbrev Bytes := List Nat

/-- `DataView.getUint8`: `none` models the thrown `RangeError` on an
out-of-range read. -/
def getUint8 (d : Bytes) (i : Nat) : Option Nat := d[i]?

/-- `DataView.getUint16(i, true)` (little-endian). -/
def getUint16LE (d : Bytes) (i : Nat) : Option Nat := do
  let b0 ← d[i]?
  let b1 ← d[i + 1]?
  return b0 + 256 * b1

/-- `DataView.getUint32(i, true)` (little-endian). -/
def getUint32LE (d : Bytes) (i : Nat) : Option Nat := do
  let b0 ← d[i]?
  let b1 ← d[i + 1]?
  let b2 ← d[i + 2]?
  let b3 ← d[i + 3]?
  return b0 + 256 * b1 + 65536 * b2 + 16777216 * b3

/-- `DataView.getUint32(i, false)` (big-endian). -/
def getUint32BE (d : Bytes) (i : Nat) : Option Nat := do
  let b0 ← d[i]?
  let b1 ← d[i + 1]?
  let b2 ← d[i + 2]?
  let b3 ← d[i + 3]?
  return 16777216 * b0 + 65536 * b1 + 256 * b2 + b3

/-- `DataView.getFloat32(i, true)`: the float is represented by its raw
little-endian 32-bit pattern. -/
def getFloat32Bits (d : Bytes) (i : Nat) : Option Nat := getUint32LE d i

/-- The byte values of the ASCII literal `"solid"`. -/
def solidBytes : List Nat := [115, 111, 108, 105, 100]

/-- The inner loop of the ASCII sniff in `isBinary`: the five bytes starting
at `off` spell `"solid"`.  In the source a read past the end would throw, but
`isBinary` is only reached after `getUint32(80)` succeeded, so the buffer has
at least 84 bytes and all sniffed indices (at most 8) are in range; an absent
byte is therefore modelled as a mismatch. -/
def solidAt (d : Bytes) (off : Nat) : Bool :=
  (List.range 5).all fun i => d[off + i]? == solidBytes[i]?

/-- `isBinary` from `STLLoader.parse`: read the face count at offset 80,
accept as binary when `84 + n*50` matches the byte length, otherwise sniff
offsets `0..4` for `"solid"` (ASCII), defaulting to binary. -/
def isBinary (d : Bytes) : Option Bool := do
  let nFaces ← getUint32LE d 80
  let expect := 84 + nFaces * 50
  if expect = d.length then
    return true
  else if (List.range 5).any fun off => solidAt d off then
    return false
  else
    return true

/-! ### Binary STL decoding (`parseBinary`) -/

/-- The header test at index `i` of the `COLOR=` extension scan in
`parseBinary`: `getUint32(i, false) == 'COLO'`, then bytes `'R'` and `'='`.
The scan runs for `i < 70`, so all reads stay below index 74 and are in range
for any buffer that already passed the read at offset 80. -/
def colorTagAt (d : Bytes) (i : Nat) : Bool :=
  getUint32BE d i == some 0x434F4C4F &&
  getUint8 d (i + 4) == some 0x52 &&
  getUint8 d (i + 5) == some 0x3D

/-- First index `i < 70` where the `COLOR=` tag occurs (the `break` in the
source keeps only the first hit). -/
def findColorTag (d : Bytes) : Option Nat :=
  (List.range 70).find? (colorTagAt d)

/-- The default r, g, b, alpha read after a `COLOR=` tag at index `i`, each
byte normalised by 255. -/
def headerDefaults (d : Bytes) (i : Nat) : Option (ℚ × ℚ × ℚ × ℚ) := do
  let r ← getUint8 d (i + 6)
  let g ← getUint8 d (i + 7)
  let b ← getUint8 d (i + 8)
  let a ← getUint8 d (i + 9)
  return ((r : ℚ) / 255, (g : ℚ) / 255, (b : ℚ) / 255, (a : ℚ) / 255)

/-- Per-face colour resolution (lines 219-227 of the loader): if bit 15 of the
packed 16-bit attribute value is clear, unpack three 5-bit channels divided by
31, else use the header default colour.  These are the r, g, b values the
source then hands to three.js `Color.setRGB`; the library's colour-space
conversion is outside the embedding. -/
def unpackColor (packed : Nat) (dflt : ℚ × ℚ × ℚ) : ℚ × ℚ × ℚ :=
  if packed &&& 0x8000 = 0 then
    (((packed &&& 0x1F : Nat) : ℚ) / 31,
     ((packed >>> 5 &&& 0x1F : Nat) : ℚ) / 31,
     ((packed >>> 10 &&& 0x1F : Nat) : ℚ) / 31)
  else
    dflt

/-- One decoded 50-byte face record: normal and vertex float bit patterns and
the resolved per-face colour (when the `COLOR=` extension is active). -/
structure FaceRec where
  nx : Nat
  ny : Nat
  nz : Nat
  x1 : Nat
  y1 : Nat
  z1 : Nat
  x2 : Nat
  y2 : Nat
  z2 : Nat
  x3 : Nat
  y3 : Nat
  z3 : Nat
  color : Option (ℚ × ℚ × ℚ)
  deriving Repr, DecidableEq

/-- The nine vertex components pushed for one face. -/
def faceVerts (r : FaceRec) : List Nat :=
  [r.x1, r.y1, r.z1, r.x2, r.y2, r.z2, r.x3, r.y3, r.z3]

/-- The nine per-vertex normal components written for one face. -/
def faceNormals (r : FaceRec) : List Nat :=
  [r.nx, r.ny, r.nz, r.nx, r.ny, r.nz, r.nx, r.ny, r.nz]

/-- The three per-vertex colour entries written for one face. -/
def faceColors (r : FaceRec) : List (ℚ × ℚ × ℚ) :=
  match r.color with
  | some c => [c, c, c]
  | none => []

/-- The per-face colour step: the packed attribute field at `+48` is only
read when the `COLOR=` extension is active (`hasColors` in the source), so a
missing attribute field does not throw without the extension. -/
def readFaceColor (d : Bytes) (dflt : Option (ℚ × ℚ × ℚ)) (start : Nat) :
    Option (Option (ℚ × ℚ × ℚ)) :=
  match dflt with
  | none => some none
  | some dc => (getUint16LE d (start + 48)).map fun packed => some (unpackColor packed dc)

/-- Decode face record `face` starting at byte `84 + face*50`: three normal
floats, the per-face colour, and the three-iteration vertex loop (offsets
`i*12` for `i = 1, 2, 3`) unrolled to nine float reads at `+12 .. +44`. -/
def parseFace (d : Bytes) (dflt : Option (ℚ × ℚ × ℚ)) (face : Nat) :
    Option FaceRec := do
  let start := 84 + face * 50
  let nx ← getFloat32Bits d start
  let ny ← getFloat32Bits d (start + 4)
  let nz ← getFloat32Bits d (start + 8)
  let color ← readFaceColor d dflt start
  let x1 ← getFloat32Bits d (start + 12)
  let y1 ← getFloat32Bits d (start + 16)
  let z1 ← getFloat32Bits d (start + 20)
  let x2 ← getFloat32Bits d (start + 24)
  let y2 ← getFloat32Bits d (start + 28)
  let z2 ← getFloat32Bits d (start + 32)
  let x3 ← getFloat32Bits d (start + 36)
  let y3 ← getFloat32Bits d (start + 40)
  let z3 ← getFloat32Bits d (start + 44)
  return ⟨nx, ny, nz, x1, y1, z1, x2, y2, z2, x3, y3, z3, color⟩

/-- The decoded binary geometry: float bit patterns for `position` and
`normal` (three entries per vertex, nine per face), per-vertex colours when
the `COLOR=` extension was present, and the header alpha. -/
structure BinGeo where
  position : List Nat
  normal : List Nat
  color : Option (List (ℚ × ℚ × ℚ))
  alpha : Option ℚ
  deriving Repr, DecidableEq

/-- The face loop `for (face = 0; face < faces; face++)` of `parseBinary`:
decode records `0 .. n-1` in order, failing as soon as one read fails. -/
def decodeFaces (d : Bytes) (dflt : Option (ℚ × ℚ × ℚ)) : Nat → Option (List FaceRec)
  | 0 => some []
  | n + 1 => do
    let rs ← decodeFaces d dflt n
    let r ← parseFace d dflt n
    return rs ++ [r]

/-- `parseBinary` from `STLLoader.parse`: read the face count at offset 80,
scan the header for the `COLOR=` extension, decode every 50-byte face record,
replicating the face normal (and resolved face colour) to the three vertices
of the face. -/
def parseBinary (d : Bytes) : Option BinGeo := do
  let faces ← getUint32LE d 80
  let dflt ← match findColorTag d with
    | none => pure none
    | some i => (headerDefaults d i).map some
  let recs ← decodeFaces d (dflt.map fun x => (x.1, x.2.1, x.2.2.1)) faces
  return {
    position := recs.flatMap faceVerts
    normal := recs.flatMap faceNormals
    color := if dflt.isSome then some (recs.flatMap faceColors) else none
    alpha := dflt.map fun x => x.2.2.2 }

/-! ### ASCII STL decoding (`parseASCII`)

The source tokenizes with JavaScript regular expressions.  The embedding
implements the exact matching semantics of the patterns used:
`/solid([\s\S]*?)endsolid/g` and `/facet([\s\S]*?)endfacet/g` are lazy
keyword-delimited blocks (leftmost opening keyword, then nearest closing
keyword); `/vertex(\s+F)(\s+F)(\s+F)/g` and `/normal(\s+F)(\s+F)(\s+F)/g`
with `F = [+-]?\d*(\.\d*)?([eE][+-]?\d+)?` scan for the keyword followed by
three whitespace-separated float tokens; `/solid\s(.+)/` extracts the name. -/

/-- Text as a character list (a JS string). -/
abbrev Chars := List Char

/-- A JS number: `none` is `NaN`, `some q` a finite value. -/
abbrev JsNum := Option ℚ

/-- ASCII digit. -/
def isDigitCh (c : Char) : Bool := 48 ≤ c.toNat && c.toNat ≤ 57

/-- The character class `\s` of JS regular expressions (whitespace and BOM). -/
def isJsSpace (c : Char) : Bool :=
  [9, 10, 11, 12, 13, 32, 160, 5760, 8192, 8193, 8194, 8195, 8196, 8197, 8198,
   8199, 8200, 8201, 8202, 8232, 8233, 8239, 8287, 12288, 65279].contains c.toNat

/-- JS line terminators (not matched by `.`). -/
def isLineTerm (c : Char) : Bool := [10, 13, 8232, 8233].contains c.toNat

/-- The pattern occurs in `s` starting at index `i`. -/
def matchAt (s pat : Chars) (i : Nat) : Bool :=
  (s.drop i).take pat.length == pat

/-- Leftmost occurrence of `pat` in `s` at index at least `start`
(the regex search from `lastIndex`). -/
def findFrom (s pat : Chars) (start : Nat) : Option Nat :=
  (List.range (s.length + 1)).find? fun i => decide (start ≤ i) && matchAt s pat i

/-- All matches of the lazy block regex `OPEN([\s\S]*?)CLOSE` with the `g`
flag: from the current `lastIndex`, the leftmost opening keyword followed by
the nearest closing keyword; each full match (keywords included) is returned
and the search resumes after it.  The fuel argument only bounds the
recursion; `s.length + 1` steps always suffice since `lastIndex` strictly
increases. -/
def lazyBlocks (s openPat closePat : Chars) : Nat → Nat → List Chars
  | _, 0 => []
  | start, fuel + 1 =>
    match findFrom s openPat start with
    | none => []
    | some i =>
      match findFrom s closePat (i + openPat.length) with
      | none => []
      | some j =>
        (s.drop i).take (j + closePat.length - i) ::
          lazyBlocks s openPat closePat (j + closePat.length) fuel

/-- Matches of `/solid([\s\S]*?)endsolid/g` over the file. -/
def solidBlocks (s : Chars) : List Chars :=
  lazyBlocks s "solid".toList "endsolid".toList 0 (s.length + 1)

/-- Matches of `/facet([\s\S]*?)endfacet/g` over one solid block. -/
def faceBlocks (sol : Chars) : List Chars :=
  lazyBlocks sol "facet".toList "endfacet".toList 0 (sol.length + 1)

/-- `/solid\s(.+)/` matches at index `i`: the keyword, one whitespace
character, then at least one non-line-terminator character. -/
def nameMatchAt (s : Chars) (i : Nat) : Bool :=
  matchAt s "solid".toList i &&
  (match s[i + 5]? with
   | some c => isJsSpace c
   | none => false) &&
  (match s[i + 6]? with
   | some c => !isLineTerm c
   | none => false)

/-- The name captured by `/solid\s(.+)/` on a solid block (the greedy `(.+)`
runs to the end of the line); the empty string when the pattern does not
match, as in the source's `nameMatch !== null ? nameMatch[1] : ""`. -/
def solidName (block : Chars) : Chars :=
  match (List.range (block.length + 1)).find? (nameMatchAt block) with
  | some i => (block.drop (i + 6)).takeWhile fun c => !isLineTerm c
  | none => []

/-- Greedy digit span. -/
def spanDigits (s : Chars) : Chars × Chars :=
  (s.takeWhile isDigitCh, s.dropWhile isDigitCh)

/-- Optional sign of the float pattern. -/
def lexSign : Chars → Chars × Chars
  | c :: r => if c = '+' || c = '-' then ([c], r) else ([], c :: r)
  | [] => ([], [])

/-- Optional `(\.\d*)` part of the float pattern. -/
def lexFrac : Chars → Chars × Chars
  | c :: r =>
    if c = '.' then
      let p := spanDigits r
      ('.' :: p.1, p.2)
    else ([], c :: r)
  | [] => ([], [])

/-- Optional `([eE][+-]?\d+)` part of the float pattern; not consumed unless
at least one exponent digit follows. -/
def lexExp : Chars → Chars × Chars
  | c :: r =>
    if c = 'e' || c = 'E' then
      match r with
      | c2 :: r2 =>
        if c2 = '+' || c2 = '-' then
          match spanDigits r2 with
          | ([], _) => ([], c :: r)
          | (ds, r3) => ([c, c2] ++ ds, r3)
        else
          match spanDigits r with
          | ([], _) => ([], c :: r)
          | (ds, r3) => (c :: ds, r3)
      | [] => ([], c :: r)
    else ([], c :: r)
  | [] => ([], [])

/-- One captured float token `[+-]?\d*(\.\d*)?([eE][+-]?\d+)?` (possibly
empty) and the remaining input. -/
def lexFloatTok (s : Chars) : Chars × Chars :=
  let p1 := lexSign s
  let p2 := spanDigits p1.2
  let p3 := lexFrac p2.2
  let p4 := lexExp p3.2
  (p1.1 ++ p2.1 ++ p3.1 ++ p4.1, p4.2)

/-- `\s+` followed by a float token: fails without at least one whitespace
character. -/
def lexWsFloat (s : Chars) : Option (Chars × Chars) :=
  if (s.takeWhile isJsSpace).isEmpty then none
  else some (lexFloatTok (s.dropWhile isJsSpace))

/-- Three successive `\s+float` groups. -/
def lex3Floats (s : Chars) : Option (Chars × Chars × Chars × Chars) := do
  let (t1, r1) ← lexWsFloat s
  let (t2, r2) ← lexWsFloat r1
  let (t3, r3) ← lexWsFloat r2
  return (t1, t2, t3, r3)

/-- All matches of `/KW(\s+F)(\s+F)(\s+F)/g`: at each candidate keyword
occurrence from the current position the three float groups are attempted;
on success the captured tokens are emitted and the search resumes after the
match, on failure at the next character. -/
def scanKw3 (s kw : Chars) : Nat → Nat → List (Chars × Chars × Chars)
  | _, 0 => []
  | start, fuel + 1 =>
    match findFrom s kw start with
    | none => []
    | some i =>
      match lex3Floats (s.drop (i + kw.length)) with
      | some (t1, t2, t3, rest) =>
        (t1, t2, t3) :: scanKw3 s kw (s.length - rest.length) fuel
      | none => scanKw3 s kw (i + 1) fuel

/-- Captured token triples of `/vertex(\s+F)(\s+F)(\s+F)/g` over a facet. -/
def vertexTokens (face : Chars) : List (Chars × Chars × Chars) :=
  scanKw3 face "vertex".toList 0 (face.length + 2)

/-- Captured token triples of `/normal(\s+F)(\s+F)(\s+F)/g` over a facet. -/
def normalTokens (face : Chars) : List (Chars × Chars × Chars) :=
  scanKw3 face "normal".toList 0 (face.length + 2)

/-- Numeric value of a digit string. -/
def digitsVal (ds : Chars) : Nat :=
  ds.foldl (fun a c => 10 * a + (c.toNat - 48)) 0

/-- Signed exponent value of a lexed exponent part. -/
def expVal : Chars → ℤ
  | [] => 0
  | _ :: r =>
    match r with
    | '-' :: ds => -(digitsVal ds : ℤ)
    | '+' :: ds => (digitsVal ds : ℤ)
    | ds => (digitsVal ds : ℤ)

/-- JS `parseFloat` on a token captured by the float pattern: `NaN` (`none`)
when there is no digit in the integer and fraction parts, otherwise the exact
decimal value. -/
def parseFloatQ (t : Chars) : JsNum :=
  let p1 := lexSign t
  let p2 := spanDigits p1.2
  let p3 := lexFrac p2.2
  let p4 := lexExp p3.2
  let fracDigits := p3.1.drop 1
  if p2.1.isEmpty && fracDigits.isEmpty then none
  else
    let sign : ℚ := if p1.1 = ['-'] then -1 else 1
    some (sign * ((digitsVal p2.1 : ℚ) + (digitsVal fracDigits : ℚ) / 10 ^ fracDigits.length)
      * 10 ^ expVal p4.1)

/-- `parseFloat` applied to the three captured tokens of one match. -/
def tokenTripleVal (t : Chars × Chars × Chars) : JsNum × JsNum × JsNum :=
  (parseFloatQ t.1, parseFloatQ t.2.1, parseFloatQ t.2.2)

/-- The vertex triples pushed by one facet block. -/
def vertexTriples (face : Chars) : List (JsNum × JsNum × JsNum) :=
  (vertexTokens face).map tokenTripleVal

/-- The normal triples assigned by one facet block. -/
def normalTriples (face : Chars) : List (JsNum × JsNum × JsNum) :=
  (normalTokens face).map tokenTripleVal

/-- Running parser state of `parseASCII`: the accumulated flat vertex and
normal streams, the mutable `normal` vector (which persists across facets and
solids), the global facet counter, warnings (the facet numbers passed to
`console.error`), the vertex high-water mark and group accumulation. -/
structure AState where
  vertices : List JsNum
  normals : List JsNum
  curNormal : JsNum × JsNum × JsNum
  faceCounter : Nat
  warnings : List Nat
  endVertex : Nat
  groupCount : Nat
  groups : List (Nat × Nat × Nat)
  groupNames : List Chars

/-- Initial state: `new Vector3()` is `(0, 0, 0)`. -/
def initAState : AState :=
  ⟨[], [], (some 0, some 0, some 0), 0, [], 0, 0, [], []⟩

/-- Process one facet block: run the normal matches (the last one leaves its
value in the shared `normal` vector), push each vertex match together with a
copy of that normal, then report a warning if the normal count is not 1 or
the vertex count is not 3, and advance the facet counter. -/
def processFace (st : AState) (face : Chars) : AState :=
  let nms := normalTriples face
  let nrm := nms.getLastD st.curNormal
  let vts := vertexTriples face
  { st with
    vertices := st.vertices ++ vts.flatMap fun v => [v.1, v.2.1, v.2.2]
    normals := st.normals ++ vts.flatMap fun _ => [nrm.1, nrm.2.1, nrm.2.2]
    curNormal := nrm
    faceCounter := st.faceCounter + 1
    warnings := st.warnings ++
      (if nms.length ≠ 1 then [st.faceCounter] else []) ++
      (if vts.length ≠ 3 then [st.faceCounter] else [])
    endVertex := st.endVertex + vts.length }

/-- Process one solid block: record its name, process its facets, then append
the group `(startVertex, endVertex - startVertex, groupCount)`. -/
def processSolid (st : AState) (block : Chars) : AState :=
  let startV := st.endVertex
  let st1 := (faceBlocks block).foldl processFace
    { st with groupNames := st.groupNames ++ [solidName block] }
  { st1 with
    groups := st1.groups ++ [(startV, st1.endVertex - startV, st.groupCount)]
    groupCount := st.groupCount + 1 }

/-- The decoded ASCII geometry: flat `position` and `normal` streams, the
named groups `(start, count, materialIndex)`, and the warnings emitted. -/
structure AsciiGeo where
  vertices : List JsNum
  normals : List JsNum
  groups : List (Nat × Nat × Nat)
  groupNames : List Chars
  warnings : List Nat
  deriving DecidableEq

/-- `parseASCII` from `STLLoader.parse`. -/
def parseASCII (s : Chars) : AsciiGeo :=
  let st := (solidBlocks s).foldl processSolid initAState
  ⟨st.vertices, st.normals, st.groups, st.groupNames, st.warnings⟩

/-! ### Subtractive cutting (`cutAwaySelection`) -/

/-- A three.js `BufferGeometry` as consumed by `cutAwaySelection` and the
viewer: flat attribute arrays of JS numbers (`position` with 3 components per
vertex, `normal` 3, `uv` 2, `color` 3) and an optional index. -/
structure Geo where
  index : Option (List Nat)
  position : List JsNum
  normal : Option (List JsNum)
  uv : Option (List JsNum)
  color : Option (List JsNum)
  deriving DecidableEq

/-- `BufferAttribute.getX`-style component read: an out-of-range index yields
`undefined`, which becomes `NaN` when pushed into a `Float32Array`; both are
modelled as `none`. -/
def attrGet (arr : List JsNum) (i : Nat) : JsNum :=
  arr[i]?.getD none

/-- The components pushed for the vertices of face `f` from an attribute with
`k` components per vertex. -/
def facePush (arr : List JsNum) (k f : Nat) : List JsNum :=
  (List.range 3).flatMap fun i =>
    (List.range k).map fun c => attrGet arr ((f * 3 + i) * k + c)

/-- `cutAwaySelection`: throws (`none`) on indexed geometry; otherwise walks
faces `0 ≤ f < ceil(position.count / 3)` (the source compares the loop
counter against the JS float division `posAttr.count / 3`), skips the faces
in `facesToRemove`, and pushes the 3 vertices of every kept face for each
attribute present on the source.  When no normal components were collected
the source calls three.js `computeVertexNormals` as a fallback; that library
call is the `computeNormals` parameter. -/
def cutAwaySelection (computeNormals : List JsNum → List JsNum)
    (g : Geo) (facesToRemove : Finset ℕ) : Option Geo :=
  if g.index.isSome then none
  else
    let posCount := g.position.length / 3
    let faceCount := (posCount + 2) / 3
    let kept := (List.range faceCount).filter fun f => f ∉ facesToRemove
    let newPositions := kept.flatMap (facePush g.position 3)
    let newNormals := match g.normal with
      | some arr => kept.flatMap (facePush arr 3)
      | none => []
    let newUVs := match g.uv with
      | some arr => kept.flatMap (facePush arr 2)
      | none => []
    let newColors := match g.color with
      | some arr => kept.flatMap (facePush arr 3)
      | none => []
    some
      { index := none
        position := newPositions
        normal := if 0 < newNormals.length then some newNormals
          else some (computeNormals newPositions)
        uv := if 0 < newUVs.length then some newUVs else none
        color := if 0 < newColors.length then some newColors else none }

/-! ### Brush selection (`STLViewer.onMouseMove`)

The camera-dependent part of the pipeline — the mesh transform
`localToWorld` and the camera projection `Vector3.project` — are three.js
calls and enter as function parameters; the centroid computation, the
normalized-device-to-screen conversion, the fixed 10-pixel brush radius and
the selection-set update are embedded from the source. -/

/-- A point in 3-space. -/
abbrev V3 := ℚ × ℚ × ℚ

/-- The vertex vector read with `Vector3.fromBufferAttribute` at vertex `i`
(the theorems assume the triangle-soup layout, under which every read is in
range, so the `getD 0` default is never observable). -/
def vecAt (positions : List ℚ) (i : Nat) : V3 :=
  (positions.getD (3 * i) 0, positions.getD (3 * i + 1) 0, positions.getD (3 * i + 2) 0)

/-- Centroid of face `f`: `(a + b + c) * (1/3)`. -/
def centroid (positions : List ℚ) (f : Nat) : V3 :=
  let a := vecAt positions (f * 3)
  let b := vecAt positions (f * 3 + 1)
  let c := vecAt positions (f * 3 + 2)
  ((a.1 + b.1 + c.1) / 3, (a.2.1 + b.2.1 + c.2.1) / 3, (a.2.2 + b.2.2 + c.2.2) / 3)

/-- Screen-space test of face `f`: transform the centroid to world space,
project it through the camera, convert normalized device coordinates to
screen pixels using the canvas rectangle `(left, top, width, height)`, and
compare the squared distance to the mouse position against the squared
10-pixel brush radius. -/
def faceHit (localToWorld project : V3 → V3) (rect : ℚ × ℚ × ℚ × ℚ)
    (positions : List ℚ) (mouse : ℚ × ℚ) (f : Nat) : Bool :=
  let v := project (localToWorld (centroid positions f))
  let screenX := (v.1 + 1) / 2 * rect.2.2.1 + rect.1
  let screenY := (-v.2.1 + 1) / 2 * rect.2.2.2 + rect.2.1
  let dx := screenX - mouse.1
  let dy := screenY - mouse.2
  decide (dx * dx + dy * dy ≤ 10 * 10)

/-- `onMouseMove`: a no-op unless selection mode is on and a drag is active;
otherwise every face index below `position.count / 3` (a JS float division;
the loop body runs `ceil(count / 3)` times) whose centroid passes the screen
test is added to the selected set, skipping indices already present. -/
def onMouseMove (localToWorld project : V3 → V3) (rect : ℚ × ℚ × ℚ × ℚ)
    (positions : List ℚ) (selecting dragging : Bool)
    (sel : Finset ℕ) (mouse : ℚ × ℚ) : Finset ℕ :=
  if !selecting then sel
  else if !dragging then sel
  else
    let posCount := positions.length / 3
    (List.range ((posCount + 2) / 3)).foldl
      (fun acc f =>
        if faceHit localToWorld project rect positions mouse f then
          if f ∈ acc then acc else insert f acc
        else acc)
      sel

/-! ### Lemmas for the cutter -/

theorem flatMap_congr_left {α β : Type} {l : List α} {f g : α → List β}
    (h : ∀ a ∈ l, f a = g a) : l.flatMap f = l.flatMap g := by
  induction l with
  | nil => rfl
  | cons a t ih =>
    simp only [List.flatMap_cons]
    rw [h a (List.mem_cons_self a t), ih fun x hx => h x (List.mem_cons_of_mem a hx)]

/-- Decompose a doubly-indexed range product. -/
theorem flatMap_range_map {α : Type} (h : Nat → α) (a b : Nat) :
    ((List.range a).flatMap fun i => (List.range b).map fun c => h (i * b + c)) =
      (List.range (a * b)).map h := by
  induction a with
  | zero => simp
  | succ a ih =>
    rw [List.range_succ, List.flatMap_append, ih, Nat.succ_mul, List.range_add,
      List.map_append]
    simp only [List.flatMap_cons, List.flatMap_nil, List.append_nil, List.map_map]
    rfl

/-- `facePush` in single-index form. -/
theorem facePush_eq_map (arr : List JsNum) (k f : Nat) :
    facePush arr k f =
      (List.range (3 * k)).map fun t => attrGet arr (f * (3 * k) + t) := by
  unfold facePush
  rw [← flatMap_range_map (fun t => attrGet arr (f * (3 * k) + t)) 3 k]
  apply flatMap_congr_left
  intro i hi
  apply List.map_congr_left
  intro c hc
  congr 1
  ring

theorem facePush_length (arr : List JsNum) (k f : Nat) :
    (facePush arr k f).length = 3 * k := by
  rw [facePush_eq_map]
  simp

theorem drop_take_eq_map (arr : List JsNum) (s m : Nat) (h : s + m ≤ arr.length) :
    (arr.drop s).take m = (List.range m).map fun t => attrGet arr (s + t) := by
  apply List.ext_getElem
  · simp only [List.length_take, List.length_drop, List.length_map, List.length_range]
    omega
  · intro n h1 h2
    simp only [List.getElem_take, List.getElem_drop, List.getElem_map, List.getElem_range]
    have hn : n < m := by
      simp only [List.length_take, List.length_drop] at h1
      omega
    rw [attrGet, List.getElem?_eq_getElem (by omega), Option.getD_some]

/-- The nine (or `3*k`) components pushed for face `f` are exactly the
contiguous slice of the attribute array belonging to that face. -/
theorem facePush_eq_slice (arr : List JsNum) (k f : Nat)
    (h : f * (3 * k) + 3 * k ≤ arr.length) :
    facePush arr k f = (arr.drop (f * (3 * k))).take (3 * k) := by
  rw [facePush_eq_map, drop_take_eq_map arr (f * (3 * k)) (3 * k) h]

/-! ### The combined `parse` entry point -/

/-- A successfully decoded geometry, from either branch. -/
inductive ParsedGeo where
  | binaryGeo (g : BinGeo)
  | asciiGeo (g : AsciiGeo)

/-- `STLLoader.parse` on an `ArrayBuffer` argument (the repository always
passes bytes: an `ArrayBuffer` or a `TextEncoder` encoding): run `isBinary`,
then the matching decoder.  `ensureString` uses the browser `TextDecoder`,
which enters as the `textDecode` parameter.  A `none` result models an
exception propagating out of `parse`; the source has no typed failure
values, so a caught exception is the only failure channel. -/
def parse (textDecode : Bytes → Chars) (d : Bytes) : Option ParsedGeo := do
  let bin ← isBinary d
  if bin then
    let g ← parseBinary d
    return ParsedGeo.binaryGeo g
  else
    return ParsedGeo.asciiGeo (parseASCII (textDecode d))

/-! ### Helper lemmas on byte reads -/

theorem get?_eq_some_of_lt {d : Bytes} {i : Nat} (h : i < d.length) :
    ∃ b, d[i]? = some b :=
  ⟨d[i], List.getElem?_eq_getElem h⟩

theorem getUint32LE_isSome {d : Bytes} {i : Nat} (h : i + 4 ≤ d.length) :
    ∃ n, getUint32LE d i = some n := by
  obtain ⟨b0, h0⟩ := get?_eq_some_of_lt (show i < d.length by omega)
  obtain ⟨b1, h1⟩ := get?_eq_some_of_lt (show i + 1 < d.length by omega)
  obtain ⟨b2, h2⟩ := get?_eq_some_of_lt (show i + 2 < d.length by omega)
  obtain ⟨b3, h3⟩ := get?_eq_some_of_lt (show i + 3 < d.length by omega)
  refine ⟨b0 + 256 * b1 + 65536 * b2 + 16777216 * b3, ?_⟩
  simp [getUint32LE, h0, h1, h2, h3]

theorem getUint32LE_eq_none {d : Bytes} {i : Nat} (h : d.length < i + 4) :
    getUint32LE d i = none := by
  have h3 : d[i + 3]? = none := List.getElem?_eq_none (by omega)
  cases h0 : d[i]? <;> cases h1 : d[i + 1]? <;> cases h2 : d[i + 2]? <;>
    simp [getUint32LE, h0, h1, h2, h3]

theorem getUint16LE_isSome {d : Bytes} {i : Nat} (h : i + 2 ≤ d.length) :
    ∃ n, getUint16LE d i = some n := by
  obtain ⟨b0, h0⟩ := get?_eq_some_of_lt (show i < d.length by omega)
  obtain ⟨b1, h1⟩ := get?_eq_some_of_lt (show i + 1 < d.length by omega)
  exact ⟨b0 + 256 * b1, by simp [getUint16LE, h0, h1]⟩

/-- A face record with all 12 float reads in range decodes, with the normal
floats taken from the front of the record; without the colour extension the
attribute field is never read, so only the first 48 bytes of the record are
touched. -/
theorem parseFace_some_noColor (d : Bytes) (face : Nat)
    (h : 84 + face * 50 + 48 ≤ d.length) :
    ∃ r, parseFace d none face = some r ∧ r.color = none ∧
      getFloat32Bits d (84 + face * 50) = some r.nx ∧
      getFloat32Bits d (84 + face * 50 + 4) = some r.ny ∧
      getFloat32Bits d (84 + face * 50 + 8) = some r.nz := by
  obtain ⟨nx, hnx⟩ := getUint32LE_isSome (show 84 + face * 50 + 4 ≤ d.length by omega)
  obtain ⟨ny, hny⟩ := getUint32LE_isSome (show 84 + face * 50 + 4 + 4 ≤ d.length by omega)
  obtain ⟨nz, hnz⟩ := getUint32LE_isSome (show 84 + face * 50 + 8 + 4 ≤ d.length by omega)
  obtain ⟨x1, hx1⟩ := getUint32LE_isSome (show 84 + face * 50 + 12 + 4 ≤ d.length by omega)
  obtain ⟨y1, hy1⟩ := getUint32LE_isSome (show 84 + face * 50 + 16 + 4 ≤ d.length by omega)
  obtain ⟨z1, hz1⟩ := getUint32LE_isSome (show 84 + face * 50 + 20 + 4 ≤ d.length by omega)
  obtain ⟨x2, hx2⟩ := getUint32LE_isSome (show 84 + face * 50 + 24 + 4 ≤ d.length by omega)
  obtain ⟨y2, hy2⟩ := getUint32LE_isSome (show 84 + face * 50 + 28 + 4 ≤ d.length by omega)
  obtain ⟨z2, hz2⟩ := getUint32LE_isSome (show 84 + face * 50 + 32 + 4 ≤ d.length by omega)
  obtain ⟨x3, hx3⟩ := getUint32LE_isSome (show 84 + face * 50 + 36 + 4 ≤ d.length by omega)
  obtain ⟨y3, hy3⟩ := getUint32LE_isSome (show 84 + face * 50 + 40 + 4 ≤ d.length by omega)
  obtain ⟨z3, hz3⟩ := getUint32LE_isSome (show 84 + face * 50 + 44 + 4 ≤ d.length by omega)
  refine ⟨⟨nx, ny, nz, x1, y1, z1, x2, y2, z2, x3, y3, z3, none⟩, ?_, rfl,
    hnx, hny, hnz⟩
  simp [parseFace, readFaceColor, getFloat32Bits, hnx, hny, hnz, hx1, hy1, hz1,
    hx2, hy2, hz2, hx3, hy3, hz3]

/-- As `parseFace_some_noColor` but with the colour extension active: the
full 50-byte record must be in range and the colour comes from the packed
attribute field. -/
theorem parseFace_some_color (d : Bytes) (face : Nat) (dc : ℚ × ℚ × ℚ)
    (h : 84 + face * 50 + 50 ≤ d.length) :
    ∃ r packed, parseFace d (some dc) face = some r ∧
      getUint16LE d (84 + face * 50 + 48) = some packed ∧
      r.color = some (unpackColor packed dc) ∧
      getFloat32Bits d (84 + face * 50) = some r.nx ∧
      getFloat32Bits d (84 + face * 50 + 4) = some r.ny ∧
      getFloat32Bits d (84 + face * 50 + 8) = some r.nz := by
  obtain ⟨nx, hnx⟩ := getUint32LE_isSome (show 84 + face * 50 + 4 ≤ d.length by omega)
  obtain ⟨ny, hny⟩ := getUint32LE_isSome (show 84 + face * 50 + 4 + 4 ≤ d.length by omega)
  obtain ⟨nz, hnz⟩ := getUint32LE_isSome (show 84 + face * 50 + 8 + 4 ≤ d.length by omega)
  obtain ⟨pk, hpk⟩ := getUint16LE_isSome (show 84 + face * 50 + 48 + 2 ≤ d.length by omega)
  obtain ⟨x1, hx1⟩ := getUint32LE_isSome (show 84 + face * 50 + 12 + 4 ≤ d.length by omega)
  obtain ⟨y1, hy1⟩ := getUint32LE_isSome (show 84 + face * 50 + 16 + 4 ≤ d.length by omega)
  obtain ⟨z1, hz1⟩ := getUint32LE_isSome (show 84 + face * 50 + 20 + 4 ≤ d.length by omega)
  obtain ⟨x2, hx2⟩ := getUint32LE_isSome (show 84 + face * 50 + 24 + 4 ≤ d.length by omega)
  obtain ⟨y2, hy2⟩ := getUint32LE_isSome (show 84 + face * 50 + 28 + 4 ≤ d.length by omega)
  obtain ⟨z2, hz2⟩ := getUint32LE_isSome (show 84 + face * 50 + 32 + 4 ≤ d.length by omega)
  obtain ⟨x3, hx3⟩ := getUint32LE_isSome (show 84 + face * 50 + 36 + 4 ≤ d.length by omega)
  obtain ⟨y3, hy3⟩ := getUint32LE_isSome (show 84 + face * 50 + 40 + 4 ≤ d.length by omega)
  obtain ⟨z3, hz3⟩ := getUint32LE_isSome (show 84 + face * 50 + 44 + 4 ≤ d.length by omega)
  refine ⟨⟨nx, ny, nz, x1, y1, z1, x2, y2, z2, x3, y3, z3,
    some (unpackColor pk dc)⟩, pk, ?_, hpk, rfl, hnx, hny, hnz⟩
  simp [parseFace, readFaceColor, getFloat32Bits, hnx, hny, hnz, hpk, hx1, hy1,
    hz1, hx2, hy2, hz2, hx3, hy3, hz3]

/-- `decodeFaces` succeeds when every face record does, and the result is
indexed by `parseFace`. -/
theorem decodeFaces_eq_some (d : Bytes) (dflt : Option (ℚ × ℚ × ℚ)) (N : Nat)
    (h : ∀ k, k < N → ∃ y, parseFace d dflt k = some y) :
    ∃ ys : List FaceRec, decodeFaces d dflt N = some ys ∧ ys.length = N ∧
      ∀ k, k < N → ys[k]? = parseFace d dflt k := by
  induction N with
  | zero => exact ⟨[], rfl, rfl, fun k hk => absurd hk (by omega)⟩
  | succ N ih =>
    obtain ⟨ys, hys, hlen, hget⟩ := ih fun k hk => h k (by omega)
    obtain ⟨y, hy⟩ := h N (by omega)
    refine ⟨ys ++ [y], ?_, by simp [hlen], ?_⟩
    · simp [decodeFaces, hys, hy]
    · intro k hk
      rcases Nat.lt_or_ge k N with hkN | hkN
      · rw [List.getElem?_append_left (by omega), hget k hkN]
      · have hkeq : k = N := by omega
        subst hkeq
        rw [List.getElem?_append_right (by omega), hy]
        simp [hlen]

/-- Every decoded record comes from `parseFace` at some face index. -/
theorem mem_of_decodeFaces_some (d : Bytes) (dflt : Option (ℚ × ℚ × ℚ)) :
    ∀ {N : Nat} {ys : List FaceRec}, decodeFaces d dflt N = some ys →
      ∀ y ∈ ys, ∃ k, k < N ∧ parseFace d dflt k = some y := by
  intro N
  induction N with
  | zero =>
    intro ys hys y hy
    simp only [decodeFaces, Option.some.injEq] at hys
    subst hys
    simp at hy
  | succ N ih =>
    intro ys hys y hy
    simp only [decodeFaces, Option.bind_eq_bind] at hys
    cases hprev : decodeFaces d dflt N with
    | none => rw [hprev] at hys; simp at hys
    | some rs =>
      rw [hprev] at hys
      cases hr : parseFace d dflt N with
      | none => rw [hr] at hys; simp at hys
      | some r =>
        rw [hr] at hys
        simp only [Option.some_bind, Option.pure_def, Option.some.injEq] at hys
        subst hys
        rcases List.mem_append.mp hy with hyl | hyr
        · obtain ⟨k, hk, hpk⟩ := ih hprev y hyl
          exact ⟨k, by omega, hpk⟩
        · simp only [List.mem_singleton] at hyr
          exact ⟨N, by omega, hyr ▸ hr⟩

/-- `decodeFaces` fails as soon as one face record fails. -/
theorem decodeFaces_eq_none (d : Bytes) (dflt : Option (ℚ × ℚ × ℚ)) {k : Nat}
    (hk : parseFace d dflt k = none) :
    ∀ {N : Nat}, k < N → decodeFaces d dflt N = none := by
  intro N
  induction N with
  | zero => omega
  | succ N ih =>
    intro hkN
    rcases Nat.lt_or_ge k N with hlt | hge
    · simp [decodeFaces, ih hlt]
    · have hkeq : k = N := by omega
      subst hkeq
      cases hprev : decodeFaces d dflt k with
      | none => simp [decodeFaces, hprev]
      | some rs => simp [decodeFaces, hprev, hk]

/-- Slice of a `flatMap` whose blocks all have length `m`: block `f` sits at
offset `m * f`. -/
theorem flatMap_fixed_slice {α β : Type} :
    ∀ (recs : List α) (B : α → List β) (m f : Nat) (r : α),
      (∀ a ∈ recs, (B a).length = m) → recs[f]? = some r →
      ((recs.flatMap B).drop (m * f)).take m = B r := by
  intro recs
  induction recs with
  | nil => intro B m f r _ hf; simp at hf
  | cons a t ih =>
    intro B m f r hB hf
    cases f with
    | zero =>
      simp only [List.getElem?_cons_zero, Option.some.injEq] at hf
      subst hf
      simp only [Nat.mul_zero, List.drop_zero, List.flatMap_cons]
      exact List.take_left' (hB a (List.mem_cons_self a t))
    | succ f =>
      simp only [List.getElem?_cons_succ] at hf
      have hstep : m * (f + 1) = (B a).length + m * f := by
        rw [hB a (List.mem_cons_self a t)]; ring
      rw [List.flatMap_cons, hstep, List.drop_append]
      exact ih B m f r (fun x hx => hB x (List.mem_cons_of_mem a hx)) hf

/-- Length of a `flatMap` with fixed block length. -/
theorem flatMap_fixed_length {α β : Type} (recs : List α) (B : α → List β)
    (m : Nat) (hB : ∀ a ∈ recs, (B a).length = m) :
    (recs.flatMap B).length = m * recs.length := by
  induction recs with
  | nil => simp
  | cons a t ih =>
    simp only [List.flatMap_cons, List.length_append, List.length_cons]
    rw [hB a (List.mem_cons_self a t), ih fun x hx => hB x (List.mem_cons_of_mem a hx)]
    ring

theorem headerDefaults_isSome {d : Bytes} {i : Nat} (h : i + 10 ≤ d.length) :
    ∃ q, headerDefaults d i = some q := by
  obtain ⟨r, hr⟩ := get?_eq_some_of_lt (show i + 6 < d.length by omega)
  obtain ⟨g, hg⟩ := get?_eq_some_of_lt (show i + 7 < d.length by omega)
  obtain ⟨b, hb⟩ := get?_eq_some_of_lt (show i + 8 < d.length by omega)
  obtain ⟨a, ha⟩ := get?_eq_some_of_lt (show i + 9 < d.length by omega)
  exact ⟨((r : ℚ) / 255, (g : ℚ) / 255, (b : ℚ) / 255, (a : ℚ) / 255),
    by simp [headerDefaults, getUint8, hr, hg, hb, ha]⟩

theorem findColorTag_lt {d : Bytes} {i : Nat} (h : findColorTag d = some i) :
    i < 70 :=
  List.mem_range.mp (List.mem_of_find?_eq_some h)

/-! ### C1: binary decoding of a valid buffer -/

/-- C1: a buffer whose byte length is exactly `84 + 50*N`, with `N` the
little-endian face count at offset 80, decodes to a geometry whose
`position` attribute has `9*N` components (3 components per vertex, hence
exactly `3*N` vertices), whose `normal` attribute has the same length, and in
which the 9 normal components of face `f` — covering its vertices `3f`,
`3f+1`, `3f+2` — are the three normal floats read from face record `f`,
each replicated three times. -/
theorem parseBinary_valid_buffer (d : Bytes) (N : Nat)
    (hN : getUint32LE d 80 = some N) (hlen : d.length = 84 + 50 * N) :
    ∃ g, parseBinary d = some g ∧
      g.position.length = 9 * N ∧ g.normal.length = 9 * N ∧
      ∀ f, f < N → ∃ nx ny nz,
        getFloat32Bits d (84 + f * 50) = some nx ∧
        getFloat32Bits d (84 + f * 50 + 4) = some ny ∧
        getFloat32Bits d (84 + f * 50 + 8) = some nz ∧
        (g.normal.drop (9 * f)).take 9 = [nx, ny, nz, nx, ny, nz, nx, ny, nz] := by
  have hnorm9 : ∀ r : FaceRec, (faceNormals r).length = 9 := fun r => rfl
  cases htag : findColorTag d with
  | none =>
    have hface : ∀ k, k < N → ∃ y, parseFace d none k = some y := by
      intro k hk
      obtain ⟨r, hr, -⟩ := parseFace_some_noColor d k (by omega)
      exact ⟨r, hr⟩
    obtain ⟨recs, hdec, hreclen, hidx⟩ := decodeFaces_eq_some d none N hface
    refine ⟨⟨recs.flatMap faceVerts, recs.flatMap faceNormals, none, none⟩, ?_, ?_, ?_, ?_⟩
    · simp [parseBinary, hN, htag, hdec]
    · rw [flatMap_fixed_length recs faceVerts 9 (fun r _ => rfl), hreclen]
    · rw [flatMap_fixed_length recs faceNormals 9 (fun r _ => hnorm9 r), hreclen]
    · intro f hf
      obtain ⟨r, hrparse, -, hnx, hny, hnz⟩ := parseFace_some_noColor d f (by omega)
      refine ⟨r.nx, r.ny, r.nz, hnx, hny, hnz, ?_⟩
      exact flatMap_fixed_slice recs faceNormals 9 f r (fun x _ => hnorm9 x)
        ((hidx f hf).trans hrparse)
  | some i =>
    have hi70 : i < 70 := findColorTag_lt htag
    obtain ⟨q, hq⟩ := headerDefaults_isSome (show i + 10 ≤ d.length by omega)
    obtain ⟨dr, dg, db, da⟩ := q
    have hface : ∀ k, k < N → ∃ y, parseFace d (some (dr, dg, db)) k = some y := by
      intro k hk
      obtain ⟨r, -, hr, -⟩ := parseFace_some_color d k (dr, dg, db) (by omega)
      exact ⟨r, hr⟩
    obtain ⟨recs, hdec, hreclen, hidx⟩ :=
      decodeFaces_eq_some d (some (dr, dg, db)) N hface
    refine ⟨⟨recs.flatMap faceVerts, recs.flatMap faceNormals,
      some (recs.flatMap faceColors), some da⟩, ?_, ?_, ?_, ?_⟩
    · simp [parseBinary, hN, htag, hq, hdec]
    · rw [flatMap_fixed_length recs faceVerts 9 (fun r _ => rfl), hreclen]
    · rw [flatMap_fixed_length recs faceNormals 9 (fun r _ => hnorm9 r), hreclen]
    · intro f hf
      obtain ⟨r, packed, hrparse, -, -, hnx, hny, hnz⟩ :=
        parseFace_some_color d f (dr, dg, db) (by omega)
      refine ⟨r.nx, r.ny, r.nz, hnx, hny, hnz, ?_⟩
      exact flatMap_fixed_slice recs faceNormals 9 f r (fun x _ => hnorm9 x)
        ((hidx f hf).trans hrparse)

/-- C1 witness: an all-zero header, face count 2, and 100 bytes of face
records (total length `84 + 50*2`). -/
def bufC1 : Bytes := List.replicate 80 0 ++ [2, 0, 0, 0] ++ List.replicate 100 7

set_option maxRecDepth 10000 in
theorem parseBinary_valid_buffer_witness :
    getUint32LE bufC1 80 = some 2 ∧ bufC1.length = 84 + 50 * 2 ∧
      (∃ g, parseBinary bufC1 = some g ∧
        g.position.length = 9 * 2 ∧ g.normal.length = 9 * 2 ∧
        ∀ f, f < 2 → ∃ nx ny nz,
          getFloat32Bits bufC1 (84 + f * 50) = some nx ∧
          getFloat32Bits bufC1 (84 + f * 50 + 4) = some ny ∧
          getFloat32Bits bufC1 (84 + f * 50 + 8) = some nz ∧
          (g.normal.drop (9 * f)).take 9 = [nx, ny, nz, nx, ny, nz, nx, ny, nz]) :=
  ⟨by decide, by decide, parseBinary_valid_buffer bufC1 2 (by decide) (by decide)⟩

/-! ### C3: per-face colour resolution -/

/-- C3: when the `COLOR=` extension tag is present in the header, every face
whose 16-bit attribute value has sign bit 0 resolves to the unpacked 5-bit
channels divided by 31 (so the packed value `0b0000000000011111` gives a red
channel of exactly 1), and every face with sign bit 1 resolves to the header
default colour regardless of the remaining bits; the resolved colour is
replicated to the face's three vertices. -/
theorem parseBinary_color_resolution (d : Bytes) (N i : Nat)
    (hN : getUint32LE d 80 = some N) (hlen : d.length = 84 + 50 * N)
    (htag : findColorTag d = some i) :
    (∀ p c, p &&& 0x8000 ≠ 0 → unpackColor p c = c) ∧
    (∀ c, (unpackColor 0x1F c).1 = 1) ∧
    ∃ dr dg db da, headerDefaults d i = some (dr, dg, db, da) ∧
      ∃ g cols, parseBinary d = some g ∧ g.color = some cols ∧
        cols.length = 3 * N ∧
        ∀ f, f < N → ∃ packed, getUint16LE d (84 + f * 50 + 48) = some packed ∧
          (cols.drop (3 * f)).take 3 =
            List.replicate 3
              (if packed &&& 0x8000 = 0 then
                (((packed &&& 0x1F : Nat) : ℚ) / 31,
                 ((packed >>> 5 &&& 0x1F : Nat) : ℚ) / 31,
                 ((packed >>> 10 &&& 0x1F : Nat) : ℚ) / 31)
              else (dr, dg, db)) := by
  refine ⟨?_, ?_, ?_⟩
  · intro p c hp
    simp [unpackColor, hp]
  · intro c
    norm_num [unpackColor, show (31 : Nat) &&& 32768 = 0 from by decide]
  · have hi70 : i < 70 := findColorTag_lt htag
    obtain ⟨q, hq⟩ := headerDefaults_isSome (show i + 10 ≤ d.length by omega)
    obtain ⟨dr, dg, db, da⟩ := q
    have hface : ∀ k, k < N → ∃ y, parseFace d (some (dr, dg, db)) k = some y := by
      intro k hk
      obtain ⟨r, -, hr, -⟩ := parseFace_some_color d k (dr, dg, db) (by omega)
      exact ⟨r, hr⟩
    obtain ⟨recs, hdec, hreclen, hidx⟩ :=
      decodeFaces_eq_some d (some (dr, dg, db)) N hface
    have hC3 : ∀ r ∈ recs, (faceColors r).length = 3 := by
      intro r hr
      obtain ⟨k, hk, hpk⟩ := mem_of_decodeFaces_some d (some (dr, dg, db)) hdec r hr
      obtain ⟨r2, packed, hr2, -, hcol, -⟩ := parseFace_some_color d k (dr, dg, db)
        (by omega)
      have : r = r2 := Option.some.inj (hpk.symm.trans hr2)
      subst this
      simp [faceColors, hcol]
    refine ⟨dr, dg, db, da, hq, ⟨recs.flatMap faceVerts, recs.flatMap faceNormals,
      some (recs.flatMap faceColors), some da⟩, recs.flatMap faceColors, ?_, rfl, ?_, ?_⟩
    · simp [parseBinary, hN, htag, hq, hdec]
    · rw [flatMap_fixed_length recs faceColors 3 hC3, hreclen]
    · intro f hf
      obtain ⟨r, packed, hrparse, hpacked, hcol, -⟩ :=
        parseFace_some_color d f (dr, dg, db) (by omega)
      refine ⟨packed, hpacked, ?_⟩
      rw [flatMap_fixed_slice recs faceColors 3 f r hC3 ((hidx f hf).trans hrparse)]
      simp only [faceColors, hcol]
      by_cases hsign : packed &&& 0x8000 = 0 <;>
        simp [unpackColor, hsign, List.replicate]

/-- C3 witness: header starting with `COLOR=` and defaults `(255,0,0,255)`;
one face whose packed attribute value is 31 (sign bit 0, red channel 31). -/
def bufC3 : Bytes :=
  [0x43, 0x4F, 0x4C, 0x4F, 0x52, 0x3D, 255, 0, 0, 255] ++ List.replicate 70 0 ++
    [1, 0, 0, 0] ++ List.replicate 48 0 ++ [31, 0]

set_option maxRecDepth 10000 in
theorem parseBinary_color_resolution_witness :
    getUint32LE bufC3 80 = some 1 ∧ bufC3.length = 84 + 50 * 1 ∧
      findColorTag bufC3 = some 0 ∧
      ((∀ p c, p &&& 0x8000 ≠ 0 → unpackColor p c = c) ∧
        (∀ c, (unpackColor 0x1F c).1 = 1) ∧
        ∃ dr dg db da, headerDefaults bufC3 0 = some (dr, dg, db, da) ∧
          ∃ g cols, parseBinary bufC3 = some g ∧ g.color = some cols ∧
            cols.length = 3 * 1 ∧
            ∀ f, f < 1 → ∃ packed,
              getUint16LE bufC3 (84 + f * 50 + 48) = some packed ∧
              (cols.drop (3 * f)).take 3 =
                List.replicate 3
                  (if packed &&& 0x8000 = 0 then
                    (((packed &&& 0x1F : Nat) : ℚ) / 31,
                     ((packed >>> 5 &&& 0x1F : Nat) : ℚ) / 31,
                     ((packed >>> 10 &&& 0x1F : Nat) : ℚ) / 31)
                  else (dr, dg, db))) :=
  ⟨by decide, by decide, by decide,
    parseBinary_color_resolution bufC3 1 0 (by decide) (by decide) (by decide)⟩

theorem getUint16LE_eq_none {d : Bytes} {i : Nat} (h : d.length < i + 2) :
    getUint16LE d i = none := by
  have h1 : d[i + 1]? = none := List.getElem?_eq_none (by omega)
  cases h0 : d[i]? <;> simp [getUint16LE, h0, h1]

/-- A face record whose 48 bytes of float data run past the end of the buffer
fails to decode (the f32 read of the last vertex component throws), whatever
the colour mode. -/
theorem bindChainNone {α β : Type} {x : Option α} {f : α → Option β}
    (h : ∀ a, f a = none) : x >>= f = none := by
  cases x <;> simp [h]

theorem parseFace_eq_none (d : Bytes) (dflt : Option (ℚ × ℚ × ℚ)) (face : Nat)
    (h : d.length < 84 + face * 50 + 48) : parseFace d dflt face = none := by
  have hz3 : getFloat32Bits d (84 + face * 50 + 44) = none :=
    getUint32LE_eq_none (by omega)
  simp only [parseFace]
  apply bindChainNone; intro nx
  apply bindChainNone; intro ny
  apply bindChainNone; intro nz
  apply bindChainNone; intro c
  apply bindChainNone; intro x1
  apply bindChainNone; intro y1
  apply bindChainNone; intro z1
  apply bindChainNone; intro x2
  apply bindChainNone; intro y2
  apply bindChainNone; intro z2
  apply bindChainNone; intro x3
  apply bindChainNone; intro y3
  rw [hz3]
  rfl

/-- With the colour extension active, a face record whose 2-byte attribute
field runs past the end of the buffer fails to decode. -/
theorem parseFace_eq_none_color (d : Bytes) (dc : ℚ × ℚ × ℚ) (face : Nat)
    (h : d.length < 84 + face * 50 + 50) : parseFace d (some dc) face = none := by
  have hpk : getUint16LE d (84 + face * 50 + 48) = none :=
    getUint16LE_eq_none (by omega)
  have hcol : readFaceColor d (some dc) (84 + face * 50) = none := by
    simp [readFaceColor, hpk]
  simp only [parseFace]
  apply bindChainNone; intro nx
  apply bindChainNone; intro ny
  apply bindChainNone; intro nz
  rw [hcol]
  rfl

/-! ### C4: truncated binary buffers -/

/-- C4 (amended): decoding a Binary-classified buffer shorter than
`84 + N*50` never yields any typed failure value (none exists in the source);
it throws an out-of-range read exception when the truncation cuts into the
48 bytes of float data of the last face, or when the `COLOR=` extension makes
the decoder read the final 2-byte attribute field; but when only that
attribute field is missing and the extension is inactive, decoding silently
succeeds with all `N` faces. -/
theorem parseBinary_truncated_behavior (d : Bytes) (N : Nat)
    (h84 : 84 ≤ d.length) (hN : getUint32LE d 80 = some N)
    (hshort : d.length < 84 + 50 * N) :
    (d.length + 3 ≤ 84 + 50 * N → parseBinary d = none) ∧
    (84 + 50 * N ≤ d.length + 2 → findColorTag d ≠ none → parseBinary d = none) ∧
    (84 + 50 * N ≤ d.length + 2 → findColorTag d = none →
      ∃ g, parseBinary d = some g ∧ g.position.length = 9 * N) := by
  have hN1 : 1 ≤ N := by
    by_contra hc
    omega
  refine ⟨?_, ?_, ?_⟩
  · intro hcut
    have hface : parseFace d none (N - 1) = none ∧
        ∀ dc : ℚ × ℚ × ℚ, parseFace d (some dc) (N - 1) = none := by
      constructor
      · exact parseFace_eq_none d none (N - 1) (by omega)
      · intro dc
        exact parseFace_eq_none d (some dc) (N - 1) (by omega)
    cases htag : findColorTag d with
    | none =>
      have hdec : decodeFaces d none N = none :=
        decodeFaces_eq_none d none hface.1 (by omega)
      simp [parseBinary, hN, htag, hdec]
    | some i =>
      have hi70 : i < 70 := findColorTag_lt htag
      obtain ⟨q, hq⟩ := headerDefaults_isSome (show i + 10 ≤ d.length by omega)
      obtain ⟨dr, dg, db, da⟩ := q
      have hdec : decodeFaces d (some (dr, dg, db)) N = none :=
        decodeFaces_eq_none d (some (dr, dg, db)) (hface.2 (dr, dg, db)) (by omega)
      simp [parseBinary, hN, htag, hq, hdec]
  · intro hnear htag
    cases htagv : findColorTag d with
    | none => exact absurd htagv htag
    | some i =>
      have hi70 : i < 70 := findColorTag_lt htagv
      obtain ⟨q, hq⟩ := headerDefaults_isSome (show i + 10 ≤ d.length by omega)
      obtain ⟨dr, dg, db, da⟩ := q
      have hface : parseFace d (some (dr, dg, db)) (N - 1) = none :=
        parseFace_eq_none_color d (dr, dg, db) (N - 1) (by omega)
      have hdec : decodeFaces d (some (dr, dg, db)) N = none :=
        decodeFaces_eq_none d (some (dr, dg, db)) hface (by omega)
      simp [parseBinary, hN, htagv, hq, hdec]
  · intro hnear htag
    have hface : ∀ k, k < N → ∃ y, parseFace d none k = some y := by
      intro k hk
      obtain ⟨r, hr, -⟩ := parseFace_some_noColor d k (by omega)
      exact ⟨r, hr⟩
    obtain ⟨recs, hdec, hreclen, hidx⟩ := decodeFaces_eq_some d none N hface
    refine ⟨⟨recs.flatMap faceVerts, recs.flatMap faceNormals, none, none⟩, ?_, ?_⟩
    · simp [parseBinary, hN, htag, hdec]
    · rw [flatMap_fixed_length recs faceVerts 9 (fun r _ => rfl), hreclen]

/-- C4 buffer: declared face count 1 but only 49 of the 50 record bytes
present (133 bytes in total, the final attribute byte missing). -/
def bufC4 : Bytes := List.replicate 80 0 ++ [1, 0, 0, 0] ++ List.replicate 49 0

set_option maxRecDepth 10000 in
/-- C4 counterexample: the truncated buffer `bufC4` is classified binary,
yet the decode call does not fail at all — with no `COLOR=` tag the 2-byte
attribute field is never read, so `parseBinary` silently returns a complete
1-face geometry (9 position components); no failure value of any kind, let
alone a `TruncatedBinaryStl`, reaches the caller. -/
theorem parseBinary_truncated_counterexample :
    bufC4.length = 133 ∧ getUint32LE bufC4 80 = some 1 ∧
      bufC4.length < 84 + 50 * 1 ∧ isBinary bufC4 = some true ∧
      (parseBinary bufC4).map (fun g => g.position.length) = some 9 := by
  refine ⟨by decide, by decide, by decide, by decide, by decide⟩

set_option maxRecDepth 10000 in
theorem parseBinary_truncated_behavior_witness :
    84 ≤ bufC4.length ∧ getUint32LE bufC4 80 = some 1 ∧
      bufC4.length < 84 + 50 * 1 ∧
      ((bufC4.length + 3 ≤ 84 + 50 * 1 → parseBinary bufC4 = none) ∧
        (84 + 50 * 1 ≤ bufC4.length + 2 → findColorTag bufC4 ≠ none →
          parseBinary bufC4 = none) ∧
        (84 + 50 * 1 ≤ bufC4.length + 2 → findColorTag bufC4 = none →
          ∃ g, parseBinary bufC4 = some g ∧ g.position.length = 9 * 1)) :=
  ⟨by decide, by decide, by decide,
    parseBinary_truncated_behavior bufC4 1 (by decide) (by decide) (by decide)⟩

/-! ### C2: format detection -/

/-- The ASCII literal `"solid"` occurs at byte offset `off`. -/
def hasSolidAt (d : Bytes) (off : Nat) : Prop :=
  (d.drop off).take 5 = solidBytes

instance (d : Bytes) (off : Nat) : Decidable (hasSolidAt d off) := by
  unfold hasSolidAt; infer_instance

theorem solidAt_iff {d : Bytes} {off : Nat} :
    solidAt d off = true ↔ hasSolidAt d off := by
  constructor
  · intro h
    apply List.ext_getElem?
    intro n
    rcases Nat.lt_or_ge n 5 with hn | hn
    · have := (List.all_eq_true.mp h) n (List.mem_range.mpr hn)
      rw [List.getElem?_take_of_lt hn, List.getElem?_drop]
      exact beq_iff_eq.mp this
    · have hl1 : ((d.drop off).take 5).length ≤ n := by
        simp only [List.length_take, List.length_drop]
        omega
      have hl2 : solidBytes.length ≤ n := by
        simp only [solidBytes, List.length_cons, List.length_nil]
        omega
      rw [List.getElem?_eq_none hl1, List.getElem?_eq_none hl2]
  · intro h
    apply List.all_eq_true.mpr
    intro n hn
    have hn5 : n < 5 := List.mem_range.mp hn
    apply beq_iff_eq.mpr
    rw [← List.getElem?_drop, ← List.getElem?_take_of_lt hn5, h]

/-- C2: for every buffer long enough for the offset-80 read, the detector
classifies `Binary` exactly when `84 + n*50` equals the byte length, where
`n` is the little-endian 32-bit value at offset 80; otherwise it classifies
`Ascii` exactly when `"solid"` starts at one of the offsets `0..4`; in every
remaining case it classifies `Binary`. -/
theorem isBinary_characterization (d : Bytes) (h : 84 ≤ d.length) :
    ∃ n, getUint32LE d 80 = some n ∧
      (isBinary d = some false ↔
        (84 + n * 50 ≠ d.length ∧ ∃ off < 5, hasSolidAt d off)) ∧
      (isBinary d = some true ↔
        (84 + n * 50 = d.length ∨ ∀ off < 5, ¬ hasSolidAt d off)) := by
  obtain ⟨n, hn⟩ := getUint32LE_isSome (show 80 + 4 ≤ d.length by omega)
  have hany : ((List.range 5).any fun off => solidAt d off) = true ↔
      ∃ off < 5, hasSolidAt d off := by
    rw [List.any_eq_true]
    constructor
    · rintro ⟨off, hmem, hoff⟩
      exact ⟨off, List.mem_range.mp hmem, solidAt_iff.mp hoff⟩
    · rintro ⟨off, hlt, hoff⟩
      exact ⟨off, List.mem_range.mpr hlt, solidAt_iff.mpr hoff⟩
  have hbody : isBinary d =
      some (if 84 + n * 50 = d.length then true
        else if (List.range 5).any fun off => solidAt d off then false else true) := by
    simp only [isBinary, hn, Option.bind_eq_bind, Option.some_bind]
    split_ifs <;> rfl
  refine ⟨n, hn, ?_, ?_⟩
  · rw [hbody]
    by_cases he : 84 + n * 50 = d.length
    · simp [he]
    · by_cases hs : ((List.range 5).any fun off => solidAt d off) = true
      · simp only [if_neg he, if_pos hs]
        simp [he, hany.mp hs]
      · have hno : ¬ ∃ off < 5, hasSolidAt d off := fun hc => hs (hany.mpr hc)
        simp only [if_neg he, if_neg hs]
        simp [he, hno]
  · rw [hbody]
    by_cases he : 84 + n * 50 = d.length
    · simp [he]
    · by_cases hs : ((List.range 5).any fun off => solidAt d off) = true
      · obtain ⟨off, hlt, hoff⟩ := hany.mp hs
        simp only [if_neg he, if_pos hs]
        simp only [he, false_or]
        constructor
        · intro hfalse
          exact absurd hfalse (by simp)
        · intro hall
          exact absurd hoff (hall off hlt)
      · have hno : ¬ ∃ off < 5, hasSolidAt d off := fun hc => hs (hany.mpr hc)
        simp only [if_neg he, if_neg hs]
        simp only [he, false_or, true_iff]
        intro off hlt hoff
        exact hno ⟨off, hlt, hoff⟩

/-- C2 witness: a 134-byte all-zero buffer except a face count of 1 at
offset 80; the length matches `84 + 1*50`, so it is classified binary. -/
def bufC2 : Bytes := List.replicate 80 0 ++ [1, 0, 0, 0] ++ List.replicate 50 0

set_option maxRecDepth 8000 in
theorem isBinary_characterization_witness :
    84 ≤ bufC2.length ∧
      ∃ n, getUint32LE bufC2 80 = some n ∧
        (isBinary bufC2 = some false ↔
          (84 + n * 50 ≠ bufC2.length ∧ ∃ off < 5, hasSolidAt bufC2 off)) ∧
        (isBinary bufC2 = some true ↔
          (84 + n * 50 = bufC2.length ∨ ∀ off < 5, ¬ hasSolidAt bufC2 off)) :=
  ⟨by decide, isBinary_characterization bufC2 (by decide)⟩

/-! ### C10: buffers shorter than 84 bytes -/

/-- C10: on any input shorter than 84 bytes — in particular any valid ASCII
STL text shorter than 84 characters — `parse` throws before reaching either
decoder: `isBinary` reads a 32-bit integer at offset 80 before the `"solid"`
sniff, and the out-of-range read throws, so no geometry and no failure value
of any kind is returned. -/
theorem parse_short_buffer_throws (textDecode : Bytes → Chars) (d : Bytes)
    (h : d.length < 84) :
    isBinary d = none ∧ parse textDecode d = none := by
  have hu : getUint32LE d 80 = none := getUint32LE_eq_none (by omega)
  constructor
  · simp [isBinary, hu]
  · simp [parse, isBinary, hu]

/-- C10 witness: the 7-byte ASCII text `"solid a"`. -/
def bufC10 : Bytes := [115, 111, 108, 105, 100, 32, 97]

theorem parse_short_buffer_throws_witness :
    bufC10.length < 84 ∧ isBinary bufC10 = none ∧
      parse (fun _ => []) bufC10 = none :=
  ⟨by decide, parse_short_buffer_throws (fun _ => []) bufC10 (by decide)⟩

/-! ### C9: the subtractive cutter -/

/-- The face indices the cutter keeps: every face index of the triangle-soup
buffer that is not in the selection, in increasing order. -/
def keptFaces (posLen : Nat) (sel : Finset ℕ) : List ℕ :=
  (List.range (posLen / 9)).filter fun f => f ∉ sel

theorem keptFlatMap_slices (arr : List JsNum) (k : Nat) (kept : List ℕ) (m : Nat)
    (hmem : ∀ f ∈ kept, f < m) (hlen : m * (3 * k) ≤ arr.length) :
    kept.flatMap (facePush arr k) =
      kept.flatMap fun f => (arr.drop (f * (3 * k))).take (3 * k) := by
  apply flatMap_congr_left
  intro f hf
  apply facePush_eq_slice
  have h1 : f + 1 ≤ m := hmem f hf
  calc f * (3 * k) + 3 * k = (f + 1) * (3 * k) := by ring
    _ ≤ m * (3 * k) := Nat.mul_le_mul_right _ h1
    _ ≤ arr.length := hlen

/-- C9: cutting a non-indexed triangle-soup buffer (3 components per vertex,
parallel attribute arrays) succeeds and returns the in-order concatenation,
over the face indices not in the selection, of each kept face's contiguous
`position` slice; `normal`, `uv` and `color` are copied the same way exactly
when present on the source (provided at least one face is kept — when every
face is selected the source stores no attribute rather than an empty one);
an attribute absent from the source stays absent; and the resulting vertex
count is a multiple of 3. -/
theorem cut_spec (computeNormals : List JsNum → List JsNum) (g : Geo)
    (sel : Finset ℕ) (hidx : g.index = none) (h9 : 9 ∣ g.position.length)
    (hnlen : ∀ arr, g.normal = some arr → arr.length = g.position.length)
    (hulen : ∀ arr, g.uv = some arr → 3 * arr.length = 2 * g.position.length)
    (hclen : ∀ arr, g.color = some arr → arr.length = g.position.length) :
    ∃ g2, cutAwaySelection computeNormals g sel = some g2 ∧
      g2.position = (keptFaces g.position.length sel).flatMap
        (fun f => (g.position.drop (f * 9)).take 9) ∧
      3 ∣ g2.position.length / 3 ∧
      (∀ arr, g.normal = some arr → keptFaces g.position.length sel ≠ [] →
        g2.normal = some ((keptFaces g.position.length sel).flatMap
          fun f => (arr.drop (f * 9)).take 9)) ∧
      (∀ arr, g.uv = some arr → keptFaces g.position.length sel ≠ [] →
        g2.uv = some ((keptFaces g.position.length sel).flatMap
          fun f => (arr.drop (f * 6)).take 6)) ∧
      (∀ arr, g.color = some arr → keptFaces g.position.length sel ≠ [] →
        g2.color = some ((keptFaces g.position.length sel).flatMap
          fun f => (arr.drop (f * 9)).take 9)) ∧
      (g.uv = none → g2.uv = none) ∧
      (g.color = none → g2.color = none) := by
  obtain ⟨m, hm⟩ := h9
  have hfc : (g.position.length / 3 + 2) / 3 = m := by omega
  have hdiv9 : g.position.length / 9 = m := by omega
  have hkept : ((List.range ((g.position.length / 3 + 2) / 3)).filter
      fun f => f ∉ sel) = keptFaces g.position.length sel := by
    rw [keptFaces, hfc, hdiv9]
  have hmem : ∀ f ∈ keptFaces g.position.length sel, f < m := by
    intro f hf
    have := List.mem_filter.mp hf
    have := List.mem_range.mp this.1
    omega
  have hpush9 : ∀ (arr : List JsNum) (f : ℕ), (facePush arr 3 f).length = 9 := by
    intro arr f
    simpa using facePush_length arr 3 f
  have hpush6 : ∀ (arr : List JsNum) (f : ℕ), (facePush arr 2 f).length = 6 := by
    intro arr f
    simpa using facePush_length arr 2 f
  have hposflat : (keptFaces g.position.length sel).flatMap (facePush g.position 3) =
      (keptFaces g.position.length sel).flatMap
        fun f => (g.position.drop (f * 9)).take 9 := by
    have := keptFlatMap_slices g.position 3 (keptFaces g.position.length sel) m hmem
      (by omega)
    simpa using this
  simp only [cutAwaySelection, hidx, Option.isSome_none, Bool.false_eq_true,
    if_false, hkept]
  refine ⟨_, rfl, ?_, ?_, ?_, ?_, ?_, ?_, ?_⟩
  · exact hposflat
  · rw [flatMap_fixed_length _ _ 9 fun f _ => hpush9 g.position f]
    omega
  · intro arr harr hne
    simp only [harr]
    have hlen : 0 < ((keptFaces g.position.length sel).flatMap
        (facePush arr 3)).length := by
      rw [flatMap_fixed_length _ _ 9 fun f _ => hpush9 arr f]
      cases hk : keptFaces g.position.length sel with
      | nil => exact absurd hk hne
      | cons a t => simp
    rw [if_pos hlen]
    have := keptFlatMap_slices arr 3 (keptFaces g.position.length sel) m hmem
      (by have := hnlen arr harr; omega)
    simpa using this
  · intro arr harr hne
    simp only [harr]
    have hlen : 0 < ((keptFaces g.position.length sel).flatMap
        (facePush arr 2)).length := by
      rw [flatMap_fixed_length _ _ 6 fun f _ => hpush6 arr f]
      cases hk : keptFaces g.position.length sel with
      | nil => exact absurd hk hne
      | cons a t => simp
    rw [if_pos hlen]
    have := keptFlatMap_slices arr 2 (keptFaces g.position.length sel) m hmem
      (by have := hulen arr harr; omega)
    simpa using this
  · intro arr harr hne
    simp only [harr]
    have hlen : 0 < ((keptFaces g.position.length sel).flatMap
        (facePush arr 3)).length := by
      rw [flatMap_fixed_length _ _ 9 fun f _ => hpush9 arr f]
      cases hk : keptFaces g.position.length sel with
      | nil => exact absurd hk hne
      | cons a t => simp
    rw [if_pos hlen]
    have := keptFlatMap_slices arr 3 (keptFaces g.position.length sel) m hmem
      (by have := hclen arr harr; omega)
    simpa using this
  · intro huv
    simp [huv]
  · intro hcol
    simp [hcol]

/-- C9 witness: a two-face buffer with `normal` and `uv` present, `color`
absent, cutting away face 0. -/
def geoC9 : Geo :=
  ⟨none, List.replicate 18 (some 1), some (List.replicate 18 (some 0)),
    some (List.replicate 12 (some 0)), none⟩

theorem cut_spec_witness :
    geoC9.index = none ∧ 9 ∣ geoC9.position.length ∧
      ∃ g2, cutAwaySelection (fun _ => []) geoC9 {0} = some g2 ∧
        g2.position = (keptFaces geoC9.position.length {0}).flatMap
          (fun f => (geoC9.position.drop (f * 9)).take 9) ∧
        3 ∣ g2.position.length / 3 ∧
        (∀ arr, geoC9.normal = some arr → keptFaces geoC9.position.length {0} ≠ [] →
          g2.normal = some ((keptFaces geoC9.position.length {0}).flatMap
            fun f => (arr.drop (f * 9)).take 9)) ∧
        (∀ arr, geoC9.uv = some arr → keptFaces geoC9.position.length {0} ≠ [] →
          g2.uv = some ((keptFaces geoC9.position.length {0}).flatMap
            fun f => (arr.drop (f * 6)).take 6)) ∧
        (∀ arr, geoC9.color = some arr → keptFaces geoC9.position.length {0} ≠ [] →
          g2.color = some ((keptFaces geoC9.position.length {0}).flatMap
            fun f => (arr.drop (f * 9)).take 9)) ∧
        (geoC9.uv = none → g2.uv = none) ∧
        (geoC9.color = none → g2.color = none) := by
  refine ⟨rfl, by decide, ?_⟩
  have hn : ∀ arr, geoC9.normal = some arr → arr.length = geoC9.position.length := by
    intro arr h
    have h2 := Option.some.inj h
    rw [← h2]
    decide
  have hu : ∀ arr, geoC9.uv = some arr → 3 * arr.length = 2 * geoC9.position.length := by
    intro arr h
    have h2 := Option.some.inj h
    rw [← h2]
    decide
  have hc : ∀ arr, geoC9.color = some arr → arr.length = geoC9.position.length := by
    intro arr h
    exact Option.noConfusion (show (none : Option (List JsNum)) = some arr from h)
  obtain ⟨g2, h1, h2, h3, h4, h5, h6, h7, h8⟩ :=
    cut_spec (fun _ => []) geoC9 {0} rfl (by decide) hn hu hc
  exact ⟨g2, h1, h2, h3, h4, h5, h6, h7, h8⟩

/-! ### C8: brush selection -/

theorem foldl_select_mem (p : ℕ → Bool) :
    ∀ (l : List ℕ) (s : Finset ℕ) (x : ℕ),
      (x ∈ l.foldl (fun acc f =>
        if p f then (if f ∈ acc then acc else insert f acc) else acc) s ↔
        x ∈ s ∨ (x ∈ l ∧ p x = true)) := by
  intro l
  induction l with
  | nil => simp
  | cons a t ih =>
    intro s x
    simp only [List.foldl_cons]
    rw [ih]
    constructor
    · rintro (hx | hx)
      · by_cases hpa : p a
        · rw [if_pos hpa] at hx
          by_cases has : a ∈ s
          · rw [if_pos has] at hx
            exact Or.inl hx
          · rw [if_neg has] at hx
            rcases Finset.mem_insert.mp hx with rfl | hxs
            · exact Or.inr ⟨List.mem_cons_self _ _, hpa⟩
            · exact Or.inl hxs
        · rw [if_neg hpa] at hx
          exact Or.inl hx
      · exact Or.inr ⟨List.mem_cons_of_mem a hx.1, hx.2⟩
    · rintro (hx | ⟨hmem, hpx⟩)
      · left
        by_cases hpa : p a
        · rw [if_pos hpa]
          by_cases has : a ∈ s
          · rwa [if_pos has]
          · rw [if_neg has]
            exact Finset.mem_insert_of_mem hx
        · rwa [if_neg hpa]
      · rcases List.mem_cons.mp hmem with rfl | hxt
        · left
          rw [if_pos hpx]
          by_cases has : x ∈ s
          · rwa [if_pos has]
          · rw [if_neg has]
            exact Finset.mem_insert_self x s
        · right
          exact ⟨hxt, hpx⟩

/-- C8: while selection mode is on and a drag is active, a pointer-move event
replaces the selected set by exactly its union with the set of face indices
whose centroid, pushed through the mesh transform, the camera projection and
the NDC-to-screen conversion, lies within the squared 10-pixel brush radius
of the mouse position; consequently the set never shrinks and repeating the
same move is idempotent. -/
theorem onMouseMove_spec (localToWorld project : V3 → V3)
    (rect : ℚ × ℚ × ℚ × ℚ) (positions : List ℚ) (sel : Finset ℕ)
    (mouse : ℚ × ℚ) (h9 : 9 ∣ positions.length) :
    onMouseMove localToWorld project rect positions true true sel mouse =
      sel ∪ (Finset.range (positions.length / 9)).filter
        (fun f => faceHit localToWorld project rect positions mouse f) ∧
    sel ⊆ onMouseMove localToWorld project rect positions true true sel mouse ∧
    onMouseMove localToWorld project rect positions true true
        (onMouseMove localToWorld project rect positions true true sel mouse)
        mouse =
      onMouseMove localToWorld project rect positions true true sel mouse := by
  obtain ⟨m, hm⟩ := h9
  have hfc : (positions.length / 3 + 2) / 3 = positions.length / 9 := by omega
  have hmain : ∀ s : Finset ℕ,
      onMouseMove localToWorld project rect positions true true s mouse =
        s ∪ (Finset.range (positions.length / 9)).filter
          (fun f => faceHit localToWorld project rect positions mouse f) := by
    intro s
    simp only [onMouseMove, Bool.not_true, Bool.false_eq_true, if_false, hfc]
    apply Finset.ext
    intro x
    rw [foldl_select_mem]
    simp only [Finset.mem_union, Finset.mem_filter, Finset.mem_range,
      List.mem_range]
  refine ⟨hmain sel, ?_, ?_⟩
  · rw [hmain sel]
    exact Finset.subset_union_left
  · rw [hmain sel, hmain, Finset.union_assoc, Finset.union_self]

/-- C8 witness: one degenerate face at the origin, identity transform and
projection, a 2-by-2 canvas at the origin and the mouse at the screen centre
`(1, 1)` (squared distance 0, within the brush). -/
def posC8 : List ℚ := List.replicate 9 0

theorem onMouseMove_spec_witness :
    9 ∣ posC8.length ∧
      (onMouseMove (fun v => v) (fun v => v) (0, 0, 2, 2) posC8 true true ∅ (1, 1) =
        ∅ ∪ (Finset.range (posC8.length / 9)).filter
          (fun f => faceHit (fun v => v) (fun v => v) (0, 0, 2, 2) posC8 (1, 1) f) ∧
      ∅ ⊆ onMouseMove (fun v => v) (fun v => v) (0, 0, 2, 2) posC8 true true ∅ (1, 1) ∧
      onMouseMove (fun v => v) (fun v => v) (0, 0, 2, 2) posC8 true true
          (onMouseMove (fun v => v) (fun v => v) (0, 0, 2, 2) posC8 true true ∅ (1, 1))
          (1, 1) =
        onMouseMove (fun v => v) (fun v => v) (0, 0, 2, 2) posC8 true true ∅ (1, 1)) :=
  ⟨by decide,
    onMouseMove_spec (fun v => v) (fun v => v) (0, 0, 2, 2) posC8 ∅ (1, 1) (by decide)⟩

/-! ### Structural lemmas for the ASCII decoder -/

/-- All facet blocks of the file, across all solids, in parse order. -/
def allFaces (s : Chars) : List Chars :=
  (solidBlocks s).flatMap faceBlocks

/-- The flat vertex components one facet block pushes. -/
def faceVertsFlat (face : Chars) : List JsNum :=
  (vertexTriples face).flatMap fun v => [v.1, v.2.1, v.2.2]

/-- The facet numbers passed to `console.error` while parsing a facet list,
starting from facet counter `c`. -/
def warnList : Nat → List Chars → List Nat
  | _, [] => []
  | c, f :: fs =>
    ((if (normalTriples f).length ≠ 1 then [c] else []) ++
      (if (vertexTriples f).length ≠ 3 then [c] else [])) ++ warnList (c + 1) fs

theorem warnList_append (l1 : List Chars) :
    ∀ (c : Nat) (l2 : List Chars),
      warnList c (l1 ++ l2) = warnList c l1 ++ warnList (c + l1.length) l2 := by
  induction l1 with
  | nil => intro c l2; simp [warnList]
  | cons f fs ih =>
    intro c l2
    have h : c + (f :: fs).length = c + 1 + fs.length := by
      simp only [List.length_cons]
      omega
    simp only [List.cons_append, warnList, List.append_eq, ih (c + 1) l2, h,
      List.append_assoc]

theorem faceVertsFlat_length (face : Chars) :
    (faceVertsFlat face).length = 3 * (vertexTriples face).length :=
  flatMap_fixed_length (vertexTriples face) _ 3 fun _ _ => rfl

theorem foldl_processFace_spec (faces : List Chars) :
    ∀ st : AState,
      (faces.foldl processFace st).vertices =
        st.vertices ++ faces.flatMap faceVertsFlat ∧
      (faces.foldl processFace st).faceCounter = st.faceCounter + faces.length ∧
      (faces.foldl processFace st).warnings =
        st.warnings ++ warnList st.faceCounter faces ∧
      (faces.foldl processFace st).endVertex =
        st.endVertex + (faces.map fun f => (vertexTriples f).length).sum ∧
      (faces.foldl processFace st).groups = st.groups ∧
      (faces.foldl processFace st).groupNames = st.groupNames ∧
      (faces.foldl processFace st).groupCount = st.groupCount := by
  induction faces with
  | nil => intro st; simp [warnList]
  | cons f fs ih =>
    intro st
    simp only [List.foldl_cons]
    obtain ⟨h1, h2, h3, h4, h5, h6, h7⟩ := ih (processFace st f)
    have hpv : (processFace st f).vertices = st.vertices ++ faceVertsFlat f := rfl
    have hpc : (processFace st f).faceCounter = st.faceCounter + 1 := rfl
    have hpw : (processFace st f).warnings =
        (st.warnings ++ (if (normalTriples f).length ≠ 1 then [st.faceCounter] else [])) ++
          (if (vertexTriples f).length ≠ 3 then [st.faceCounter] else []) := rfl
    have hpe : (processFace st f).endVertex =
        st.endVertex + (vertexTriples f).length := rfl
    refine ⟨?_, ?_, ?_, ?_, ?_, ?_, ?_⟩
    · rw [h1, hpv]
      simp [List.append_assoc]
    · rw [h2, hpc, List.length_cons]
      omega
    · rw [h3, hpw, hpc]
      simp only [warnList, List.append_assoc]
    · rw [h4, hpe, List.map_cons, List.sum_cons]
      omega
    · rw [h5]
      rfl
    · rw [h6]
      rfl
    · rw [h7]
      rfl

theorem foldl_processSolid_spec (solids : List Chars) :
    ∀ st : AState,
      (solids.foldl processSolid st).vertices =
        st.vertices ++ (solids.flatMap faceBlocks).flatMap faceVertsFlat ∧
      (solids.foldl processSolid st).faceCounter =
        st.faceCounter + (solids.flatMap faceBlocks).length ∧
      (solids.foldl processSolid st).warnings =
        st.warnings ++ warnList st.faceCounter (solids.flatMap faceBlocks) := by
  induction solids with
  | nil => intro st; simp [warnList]
  | cons b bs ih =>
    intro st
    simp only [List.foldl_cons]
    obtain ⟨h1, h2, h3⟩ := ih (processSolid st b)
    obtain ⟨f1, f2, f3, -, -, -, -⟩ :=
      foldl_processFace_spec (faceBlocks b) { st with
        groupNames := st.groupNames ++ [solidName b] }
    have hv : (processSolid st b).vertices =
        st.vertices ++ (faceBlocks b).flatMap faceVertsFlat := by
      simp only [processSolid]
      rw [f1]
    have hf : (processSolid st b).faceCounter =
        st.faceCounter + (faceBlocks b).length := by
      simp only [processSolid]
      rw [f2]
    have hw : (processSolid st b).warnings =
        st.warnings ++ warnList st.faceCounter (faceBlocks b) := by
      simp only [processSolid]
      rw [f3]
    refine ⟨?_, ?_, ?_⟩
    · rw [h1, hv]
      simp [List.flatMap_append, List.append_assoc]
    · rw [h2, hf]
      simp only [List.flatMap_cons, List.length_append]
      omega
    · rw [h3, hf, hw]
      simp only [List.flatMap_cons, warnList_append, List.append_assoc]

/-- The vertex stream of `parseASCII` is the in-order concatenation of every
facet block's vertex data, across all solids, regardless of how many
vertices each facet yielded. -/
theorem parseASCII_vertices (s : Chars) :
    (parseASCII s).vertices = (allFaces s).flatMap faceVertsFlat := by
  obtain ⟨h1, -, -⟩ := foldl_processSolid_spec (solidBlocks s) initAState
  simp only [parseASCII, allFaces]
  rw [h1]
  rfl

theorem parseASCII_warnings (s : Chars) :
    (parseASCII s).warnings = warnList 0 (allFaces s) := by
  obtain ⟨-, -, h3⟩ := foldl_processSolid_spec (solidBlocks s) initAState
  simp only [parseASCII, allFaces]
  rw [h3]
  rfl

theorem mem_warnList_of_malformed :
    ∀ (faces : List Chars) (c j : Nat) (fj : Chars), faces[j]? = some fj →
      ((vertexTriples fj).length ≠ 3 ∨ (normalTriples fj).length ≠ 1) →
      (c + j) ∈ warnList c faces := by
  intro faces
  induction faces with
  | nil => intro c j fj hj; simp at hj
  | cons f fs ih =>
    intro c j fj hj hmal
    cases j with
    | zero =>
      simp only [List.getElem?_cons_zero, Option.some.injEq] at hj
      subst hj
      rcases hmal with h | h <;>
        simp [warnList, h, List.mem_append]
    | succ j =>
      simp only [List.getElem?_cons_succ] at hj
      have hmem := ih (c + 1) j fj hj hmal
      have : c + (j + 1) = c + 1 + j := by omega
      rw [this]
      simp [warnList, List.mem_append, hmem]

/-- Slice of a `flatMap` at the prefix-sum offset of block `k`. -/
theorem flatMap_prefix_slice {α β : Type} :
    ∀ (L : List α) (g : α → List β) (k : Nat) (fk : α), L[k]? = some fk →
      ((L.flatMap g).drop (((L.take k).map fun a => (g a).length).sum)).take
        (g fk).length = g fk := by
  intro L
  induction L with
  | nil => intro g k fk h; simp at h
  | cons a t ih =>
    intro g k fk h
    cases k with
    | zero =>
      simp only [List.getElem?_cons_zero, Option.some.injEq] at h
      subst h
      simp only [List.take_zero, List.map_nil, List.sum_nil, List.drop_zero,
        List.flatMap_cons]
      exact List.take_left _ _
    | succ k =>
      simp only [List.getElem?_cons_succ] at h
      simp only [List.take_succ_cons, List.map_cons, List.sum_cons,
        List.flatMap_cons]
      rw [List.drop_append]
      exact ih g k fk h

/-! ### C5: parsing one well-formed solid -/

/-- The C5 input text. -/
def inputC5 : Chars :=
  ("solid pyramid\nfacet normal 0 0 1\nouter loop\nvertex 0 0 0\nvertex 1 0 0\nvertex 0 1 0\nendloop\nendfacet\nendsolid pyramid\n").toList

/-- The single lazy `solid ... endsolid` match of the C5 input. -/
def solidC5 : Chars :=
  ("solid pyramid\nfacet normal 0 0 1\nouter loop\nvertex 0 0 0\nvertex 1 0 0\nvertex 0 1 0\nendloop\nendfacet\nendsolid").toList

/-- The single lazy `facet ... endfacet` match of the C5 solid. -/
def faceC5 : Chars :=
  ("facet normal 0 0 1\nouter loop\nvertex 0 0 0\nvertex 1 0 0\nvertex 0 1 0\nendloop\nendfacet").toList

set_option maxRecDepth 100000 in
theorem solidBlocks_inputC5 : solidBlocks inputC5 = [solidC5] := by decide

set_option maxRecDepth 100000 in
theorem faceBlocks_solidC5 : faceBlocks solidC5 = [faceC5] := by decide

set_option maxRecDepth 100000 in
theorem solidName_solidC5 : solidName solidC5 = "pyramid".toList := by decide

set_option maxRecDepth 100000 in
theorem vertexTokens_faceC5 :
    vertexTokens faceC5 =
      [(['0'], ['0'], ['0']), (['1'], ['0'], ['0']), (['0'], ['1'], ['0'])] := by
  decide

set_option maxRecDepth 100000 in
theorem normalTokens_faceC5 : normalTokens faceC5 = [(['0'], ['0'], ['1'])] := by
  decide

/-- `parseFloat` on a plain nonempty digit token is its numeric value. -/
theorem parseFloatQ_digits (ds : Chars) (hne : ds ≠ [])
    (hds : ∀ c ∈ ds, isDigitCh c = true) :
    parseFloatQ ds = some ((digitsVal ds : ℕ) : ℚ) := by
  obtain ⟨c, cs, rfl⟩ : ∃ c cs, ds = c :: cs := by
    cases ds with
    | nil => exact absurd rfl hne
    | cons c cs => exact ⟨c, cs, rfl⟩
  have hc : isDigitCh c = true := hds c (List.mem_cons_self c cs)
  have hsign : lexSign (c :: cs) = ([], c :: cs) := by
    simp only [lexSign]
    rw [if_neg]
    intro h
    rcases Bool.or_eq_true _ _ |>.mp h with h1 | h1 <;>
      rw [decide_eq_true_iff] at h1 <;> subst h1 <;> simp [isDigitCh] at hc
  have htake : (c :: cs).takeWhile isDigitCh = c :: cs :=
    List.takeWhile_eq_self_iff.mpr hds
  have hdrop : (c :: cs).dropWhile isDigitCh = [] :=
    List.dropWhile_eq_nil_iff.mpr hds
  simp only [parseFloatQ, hsign, spanDigits, htake, hdrop, lexFrac, lexExp]
  norm_num [digitsVal, expVal]

theorem parseFloatQ_zero : parseFloatQ ['0'] = some 0 := by
  rw [parseFloatQ_digits ['0'] (by decide) (by decide),
    show digitsVal ['0'] = 0 from by decide]
  norm_num

theorem parseFloatQ_one : parseFloatQ ['1'] = some 1 := by
  rw [parseFloatQ_digits ['1'] (by decide) (by decide),
    show digitsVal ['1'] = 1 from by decide]
  norm_num

theorem vertexTriples_faceC5 :
    vertexTriples faceC5 = [(some 0, some 0, some 0), (some 1, some 0, some 0),
      (some 0, some 1, some 0)] := by
  rw [vertexTriples, vertexTokens_faceC5]
  simp [tokenTripleVal, parseFloatQ_zero, parseFloatQ_one]

theorem normalTriples_faceC5 :
    normalTriples faceC5 = [(some 0, some 0, some 1)] := by
  rw [normalTriples, normalTokens_faceC5]
  simp [tokenTripleVal, parseFloatQ_zero, parseFloatQ_one]

/-- C5: parsing the single well-formed one-facet solid yields exactly 3
vertices with positions `(0,0,0)`, `(1,0,0)`, `(0,1,0)`, the normal
`(0,0,1)` replicated at all three vertices, exactly one group covering
vertices `[0, 3)` (material index 0), exactly one solid name, and no
warnings. -/
theorem parseASCII_single_solid :
    (parseASCII inputC5).vertices =
      [some 0, some 0, some 0, some 1, some 0, some 0, some 0, some 1, some 0] ∧
    (parseASCII inputC5).normals =
      [some 0, some 0, some 1, some 0, some 0, some 1, some 0, some 0, some 1] ∧
    (parseASCII inputC5).groups = [(0, 3, 0)] ∧
    (parseASCII inputC5).groupNames = ["pyramid".toList] ∧
    (parseASCII inputC5).warnings = [] := by
  have hstate : (solidBlocks inputC5).foldl processSolid initAState =
      ⟨[some 0, some 0, some 0, some 1, some 0, some 0, some 0, some 1, some 0],
       [some 0, some 0, some 1, some 0, some 0, some 1, some 0, some 0, some 1],
       (some 0, some 0, some 1), 1, [], 3, 1, [(0, 3, 0)], ["pyramid".toList]⟩ := by
    rw [solidBlocks_inputC5]
    simp only [List.foldl_cons, List.foldl_nil]
    unfold processSolid
    rw [faceBlocks_solidC5, solidName_solidC5]
    simp only [List.foldl_cons, List.foldl_nil]
    unfold processFace
    rw [vertexTriples_faceC5, normalTriples_faceC5]
    simp [initAState]
  simp [parseASCII, hstate]

/-! ### C6: malformed facets do not abort ASCII parsing -/

/-- C6: on any input containing a malformed facet (wrong vertex-triple or
normal-triple count), parsing does not abort: every malformed facet's global
facet number is reported in the warnings, and every facet that yielded 3
vertex triples — before or after the malformed one — still has its 9 vertex
components present in the output at that facet's accumulated offset. -/
theorem parseASCII_malformed_tolerance (s : Chars)
    (_hmal : ∃ (j : Nat) (fj : Chars), (allFaces s)[j]? = some fj ∧
      ((vertexTriples fj).length ≠ 3 ∨ (normalTriples fj).length ≠ 1)) :
    (∀ (j : Nat) (fj : Chars), (allFaces s)[j]? = some fj →
      ((vertexTriples fj).length ≠ 3 ∨ (normalTriples fj).length ≠ 1) →
      j ∈ (parseASCII s).warnings) ∧
    (∀ (k : Nat) (fk : Chars), (allFaces s)[k]? = some fk →
      (vertexTriples fk).length = 3 →
      ((parseASCII s).vertices.drop
        ((((allFaces s).take k).map fun f => (faceVertsFlat f).length).sum)).take 9 =
        faceVertsFlat fk) := by
  constructor
  · intro j fj hj hm
    rw [parseASCII_warnings]
    have := mem_warnList_of_malformed (allFaces s) 0 j fj hj hm
    simpa using this
  · intro k fk hk h3
    rw [parseASCII_vertices]
    have := flatMap_prefix_slice (allFaces s) faceVertsFlat k fk hk
    rw [faceVertsFlat_length, h3] at this
    simpa using this

/-- The C6 witness input: a facet with only 2 vertices followed by a
well-formed facet in the same solid. -/
def inputC6 : Chars :=
  ("solid a\nfacet normal 0 0 1\nouter loop\nvertex 0 0 0\nvertex 1 0 0\nendloop\nendfacet\nfacet normal 0 0 1\nouter loop\nvertex 0 0 0\nvertex 1 0 0\nvertex 0 1 0\nendloop\nendfacet\nendsolid\n").toList

/-- The malformed first facet block of `inputC6`. -/
def faceC6 : Chars :=
  ("facet normal 0 0 1\nouter loop\nvertex 0 0 0\nvertex 1 0 0\nendloop\nendfacet").toList

set_option maxRecDepth 400000 in
theorem parseASCII_malformed_tolerance_witness :
    (∃ (j : Nat) (fj : Chars), (allFaces inputC6)[j]? = some fj ∧
      ((vertexTriples fj).length ≠ 3 ∨ (normalTriples fj).length ≠ 1)) ∧
    ((∀ (j : Nat) (fj : Chars), (allFaces inputC6)[j]? = some fj →
      ((vertexTriples fj).length ≠ 3 ∨ (normalTriples fj).length ≠ 1) →
      j ∈ (parseASCII inputC6).warnings) ∧
    (∀ (k : Nat) (fk : Chars), (allFaces inputC6)[k]? = some fk →
      (vertexTriples fk).length = 3 →
      ((parseASCII inputC6).vertices.drop
        ((((allFaces inputC6).take k).map fun f => (faceVertsFlat f).length).sum)).take 9 =
        faceVertsFlat fk)) :=
  ⟨⟨0, faceC6, by decide, Or.inl (by decide)⟩,
    parseASCII_malformed_tolerance inputC6
      ⟨0, faceC6, by decide, Or.inl (by decide)⟩⟩

/-! ### C7: the multiple-of-3 vertex-count invariant -/

/-- The C7 counterexample input: a single facet yielding only 2 vertices. -/
def inputC7 : Chars :=
  ("solid a\nfacet normal 0 0 1\nouter loop\nvertex 0 0 0\nvertex 1 0 0\nendloop\nendfacet\nendsolid\n").toList

set_option maxRecDepth 400000 in
/-- C7 counterexample: the claim includes ASCII inputs with malformed facets,
but a facet with only 2 vertex lines makes `parseASCII` emit 2 vertices —
the facet's data is partially emitted, and the resulting vertex count 2 is
not a multiple of 3. -/
theorem vertex_count_counterexample :
    (parseASCII inputC7).vertices.length / 3 = 2 ∧
      ¬ (3 ∣ (parseASCII inputC7).vertices.length / 3) :=
  ⟨by decide, by decide⟩

/-- C7 (amended): the vertex count is a multiple of 3 for every successful
binary decode and every cut result, and for an ASCII decode whenever every
facet yields exactly 3 vertex triples; a malformed facet can break the
invariant (see the counterexample). -/
theorem vertex_count_invariant :
    (∀ (d : Bytes) (g : BinGeo), parseBinary d = some g →
      3 ∣ g.position.length / 3) ∧
    (∀ s : Chars, (∀ f ∈ allFaces s, (vertexTriples f).length = 3) →
      3 ∣ (parseASCII s).vertices.length / 3) ∧
    (∀ (cn : List JsNum → List JsNum) (g : Geo) (sel : Finset ℕ) (g2 : Geo),
      cutAwaySelection cn g sel = some g2 → 3 ∣ g2.position.length / 3) := by
  refine ⟨?_, ?_, ?_⟩
  · intro d g h
    cases htag : findColorTag d with
    | none =>
      simp only [parseBinary, htag, Option.bind_eq_bind, Option.pure_def,
        Option.some_bind, Option.bind_eq_some, Option.some.injEq] at h
      obtain ⟨N, hN, recs, hrecs, hg⟩ := h
      subst hg
      show 3 ∣ (recs.flatMap faceVerts).length / 3
      rw [flatMap_fixed_length recs faceVerts 9 fun r _ => rfl]
      omega
    | some i =>
      simp only [parseBinary, htag, Option.bind_eq_bind, Option.pure_def,
        Option.some_bind, Option.bind_eq_some, Option.some.injEq] at h
      obtain ⟨N, hN, y, hy, recs, hrecs, hg⟩ := h
      subst hg
      show 3 ∣ (recs.flatMap faceVerts).length / 3
      rw [flatMap_fixed_length recs faceVerts 9 fun r _ => rfl]
      omega
  · intro s hwf
    rw [parseASCII_vertices,
      flatMap_fixed_length (allFaces s) faceVertsFlat 9 fun f hf => by
        rw [faceVertsFlat_length, hwf f hf]]
    omega
  · intro cn g sel g2 h
    by_cases hidx : g.index.isSome = true
    · simp [cutAwaySelection, hidx] at h
    · simp only [cutAwaySelection, hidx, Bool.false_eq_true, if_false,
        Option.some.injEq] at h
      subst h
      show 3 ∣ (((List.range ((g.position.length / 3 + 2) / 3)).filter
        fun f => f ∉ sel).flatMap (facePush g.position 3)).length / 3
      rw [flatMap_fixed_length _ _ 9 fun f _ => by
        simpa using facePush_length g.position 3 f]
      omega

/-- C7 buffer for the binary conjunct of the witness: a zero-face binary
file (84 bytes, face count 0). -/
def bufC7 : Bytes := List.replicate 80 0 ++ [0, 0, 0, 0]

/-- C7 geometry for the cut conjunct of the witness. -/
def geoC7 : Geo := ⟨none, List.replicate 18 none, none, none, none⟩

set_option maxRecDepth 400000 in
theorem vertex_count_invariant_witness :
    (parseBinary bufC7 = some ⟨[], [], none, none⟩ ∧
      3 ∣ (⟨[], [], none, none⟩ : BinGeo).position.length / 3) ∧
    ((∀ f ∈ allFaces inputC5, (vertexTriples f).length = 3) ∧
      3 ∣ (parseASCII inputC5).vertices.length / 3) ∧
    (cutAwaySelection (fun _ => []) geoC7 ∅ =
        some ⟨none, List.replicate 18 none, some [], none, none⟩ ∧
      3 ∣ (⟨none, List.replicate 18 none, some [], none, none⟩ : Geo).position.length / 3) := by
  have hbin : parseBinary bufC7 = some ⟨[], [], none, none⟩ := by decide
  have hwf : ∀ f ∈ allFaces inputC5, (vertexTriples f).length = 3 := by decide
  have hcut : cutAwaySelection (fun _ => []) geoC7 ∅ =
      some ⟨none, List.replicate 18 none, some [], none, none⟩ := by decide
  exact ⟨⟨hbin, vertex_count_invariant.1 bufC7 _ hbin⟩,
    ⟨hwf, vertex_count_invariant.2.1 inputC5 hwf⟩,
    ⟨hcut, vertex_count_invariant.2.2 (fun _ => []) geoC7 ∅ _ hcut⟩⟩

end CastCad
